import Mathlib

/-!
go-TelegramMessage: message filter, link extraction, subscription notifier, live and
backfill pipelines, progress monitor.

A shallow embedding of `main.go`.  Go strings are byte sequences, so a string is a list of
bytes (`GoString`), `len` is `List.length` and a slice `s[a:b]` is `(s.drop a).take (b - a)`.
The functions of the Go standard library that the program calls (`strings.Index`,
`strings.Contains`, `strings.Split`, `strings.TrimSpace`, `strings.TrimRight`,
`strings.ToLower`, `utf8.DecodeRuneInString`, ...) are embedded next to the functions of the
program.  The Unicode case table (`unicode.ToLower`), the JSON decoder and the HTTP round
trip are parameters of the embedding.
-/

namespace TelegramMessage

/-! ## Go strings and the `unicode/utf8` package -/

/-- A Go string: its bytes, each below 256. -/
abbrev GoString := List Nat

/-- The constant `utf8.RuneError`. -/
def runeError : Nat := 0xFFFD

/-- The constant `utf8.RuneSelf`: bytes below it are single-byte runes. -/
def runeSelf : Nat := 0x80

/-- Go `utf8.AppendRune`: the UTF-8 encoding of a rune; surrogates and values beyond
`utf8.MaxRune` are written as `utf8.RuneError`. -/
def encodeRune (r : Nat) : GoString :=
  if r < 0x80 then [r]
  else if r < 0x800 then [0xC0 + r / 64, 0x80 + r % 64]
  else if 0x10FFFF < r ∨ (0xD800 ≤ r ∧ r ≤ 0xDFFF) then [0xEF, 0xBF, 0xBD]
  else if r < 0x10000 then [0xE0 + r / 4096, 0x80 + r / 64 % 64, 0x80 + r % 64]
  else [0xF0 + r / 262144, 0x80 + r / 4096 % 64, 0x80 + r / 64 % 64, 0x80 + r % 64]

/-- The bytes of a Go string literal (Go source text is UTF-8). -/
def lit (s : String) : GoString :=
  s.data.flatMap (fun c => encodeRune c.toNat)

/-- A continuation byte `0x80..0xBF` (`locb..hicb`). -/
def isCont (b : Nat) : Bool := decide (0x80 ≤ b ∧ b ≤ 0xBF)

/-- Go `utf8.DecodeRuneInString`: the first rune of `s` and its width in bytes; an invalid or
short encoding gives `(RuneError, 1)`, the empty string `(RuneError, 0)`. -/
def decodeRune : GoString → Nat × Nat
  | [] => (runeError, 0)
  | s0 :: rest =>
    if s0 < 0x80 then (s0, 1)
    else if s0 < 0xC2 then (runeError, 1)
    else if s0 < 0xE0 then
      match rest with
      | s1 :: _ =>
        if isCont s1 then (s0 % 32 * 64 + s1 % 64, 2) else (runeError, 1)
      | _ => (runeError, 1)
    else if s0 < 0xF0 then
      match rest with
      | s1 :: s2 :: _ =>
        if (if s0 = 0xE0 then 0xA0 else 0x80) ≤ s1 ∧ s1 ≤ (if s0 = 0xED then 0x9F else 0xBF) then
          if isCont s2 then (s0 % 16 * 4096 + s1 % 64 * 64 + s2 % 64, 3) else (runeError, 1)
        else (runeError, 1)
      | _ => (runeError, 1)
    else if s0 < 0xF5 then
      match rest with
      | s1 :: s2 :: s3 :: _ =>
        if (if s0 = 0xF0 then 0x90 else 0x80) ≤ s1 ∧ s1 ≤ (if s0 = 0xF4 then 0x8F else 0xBF) then
          if isCont s2 then
            if isCont s3 then
              (s0 % 8 * 262144 + s1 % 64 * 4096 + s2 % 64 * 64 + s3 % 64, 4)
            else (runeError, 1)
          else (runeError, 1)
        else (runeError, 1)
      | _ => (runeError, 1)
    else (runeError, 1)

/-- Go `utf8.RuneStart`: the byte is not a continuation byte (`b&0xC0 != 0x80`). -/
def runeStart (b : Nat) : Bool := !isCont b

/-- The backward scan `for start--; start >= lim; start-- { if RuneStart(s[start]) { break } }`
of `utf8.DecodeLastRuneInString`.  The argument and the result are `start + 1`, so that `0`
stands for `start = -1`. -/
def lastRuneScan (s : GoString) (lim : Nat) : Nat → Nat
  | 0 => 0
  | n + 1 =>
    if n < lim then n + 1
    else if runeStart (s.getD n 0) then n + 1
    else lastRuneScan s lim n

/-- Go `utf8.DecodeLastRuneInString`: the last rune of `s` and its width. -/
def decodeLastRune (s : GoString) : Nat × Nat :=
  let stop := s.length
  if stop = 0 then (runeError, 0)
  else
    let r := s.getD (stop - 1) 0
    if r < runeSelf then (r, 1)
    else
      let lim := stop - 4
      let m := lastRuneScan s lim (stop - 1)
      let start := if m ≤ lim then lim else m - 1
      let d := decodeRune ((s.drop start).take (stop - start))
      if start + d.2 ≠ stop then (runeError, 1) else d

/-- The runes of a string as `for _, c := range s` yields them: an invalid byte is one
`RuneError`.  The fuel is the number of bytes left. -/
def runesAux : Nat → GoString → List Nat
  | 0, _ => []
  | k + 1, s =>
    if s.length > 0 then (decodeRune s).1 :: runesAux k (s.drop (decodeRune s).2) else []

/-- The runes of a string, in order. -/
def runes (s : GoString) : List Nat := runesAux s.length s

/-! ## The `strings` package -/

/-- Go `strings.HasPrefix`. -/
def hasPrefix (s pre : GoString) : Bool := pre.isPrefixOf s

/-- Search of `strings.Index` from byte offset `i` on: the offset of the first occurrence of
`sub` in the rest `s`, or `-1`. -/
def indexFrom (sub : GoString) : GoString → Nat → Int
  | [], i => if hasPrefix [] sub then (i : Int) else -1
  | c :: cs, i => if hasPrefix (c :: cs) sub then (i : Int) else indexFrom sub cs (i + 1)

/-- Go `strings.Index`: the byte index of the first occurrence of `sub` in `s`, or `-1`. -/
def index (s sub : GoString) : Int := indexFrom sub s 0

/-- Go `strings.Contains`: `Index(s, sub) >= 0`. -/
def contains (s sub : GoString) : Bool := decide (index s sub ≥ 0)

/-- Go `strings.Split(s, sep)` for a one-byte separator: the pieces between the separators,
`[""]` for the empty string. -/
def split (sep : Nat) : GoString → List GoString
  | [] => [[]]
  | c :: cs =>
    if c = sep then [] :: split sep cs
    else
      match split sep cs with
      | [] => [[c]]
      | l :: ls => (c :: l) :: ls

/-- The table `asciiSpace` of the `strings` package: tab, newline, vertical tab, form feed,
carriage return, space. -/
def asciiSpace (c : Nat) : Bool :=
  c = 0x09 || c = 0x0A || c = 0x0B || c = 0x0C || c = 0x0D || c = 0x20

/-- Go `unicode.IsSpace`. -/
def isSpace (r : Nat) : Bool :=
  asciiSpace r || r = 0x85 || r = 0xA0 || r = 0x1680 || (0x2000 ≤ r && r ≤ 0x200A) ||
    r = 0x2028 || r = 0x2029 || r = 0x202F || r = 0x205F || r = 0x3000

/-- Go `strings.TrimLeftFunc(s, unicode.IsSpace)`: drop leading runes while they are white
space.  The fuel is the number of bytes left. -/
def trimLeftSpaceAux : Nat → GoString → GoString
  | 0, s => s
  | k + 1, s =>
    if s.length > 0 then
      if isSpace (decodeRune s).1 then trimLeftSpaceAux k (s.drop (decodeRune s).2) else s
    else s

/-- Go `strings.TrimLeftFunc(s, unicode.IsSpace)`. -/
def trimLeftSpace (s : GoString) : GoString := trimLeftSpaceAux s.length s

/-- The loop of `lastIndexFunc(s, unicode.IsSpace, false)`: the start of the last rune of
`s[0:i]` that is not white space, or `-1`.  The fuel is the number of bytes left. -/
def lastNonSpaceAux (s : GoString) : Nat → Nat → Int
  | 0, _ => -1
  | k + 1, i =>
    if i = 0 then -1
    else
      let d := decodeLastRune (s.take i)
      if !isSpace d.1 then ((i - d.2 : Nat) : Int) else lastNonSpaceAux s k (i - d.2)

/-- Go `strings.TrimRightFunc(s, unicode.IsSpace)`. -/
def trimRightSpace (s : GoString) : GoString :=
  let i := lastNonSpaceAux s s.length s.length
  if i ≥ 0 ∧ s.getD i.toNat 0 ≥ runeSelf then
    s.take (i.toNat + (decodeRune (s.drop i.toNat)).2)
  else s.take (i + 1).toNat

/-- Second loop of `strings.TrimSpace`: `stop` moves down from `len(s)` over ASCII white
space; a byte at or above `RuneSelf` hands over to `TrimRightFunc`. -/
def trimSpaceStop (s : GoString) (start : Nat) : Nat → GoString
  | 0 => (s.drop start).take (0 - start)
  | stop + 1 =>
    if stop + 1 > start then
      if s.getD stop 0 ≥ runeSelf then trimRightSpace ((s.drop start).take (stop + 1 - start))
      else if asciiSpace (s.getD stop 0) then trimSpaceStop s start stop
      else (s.drop start).take (stop + 1 - start)
    else (s.drop start).take (stop + 1 - start)

/-- First loop of `strings.TrimSpace`: `start` moves up over ASCII white space; a byte at or
above `RuneSelf` hands over to `TrimFunc`.  The first argument is the whole string, the second
`s[start:]`. -/
def trimSpaceStart (s : GoString) : GoString → Nat → GoString
  | [], start => trimSpaceStop s start s.length
  | c :: cs, start =>
    if c ≥ runeSelf then trimRightSpace (trimLeftSpace (c :: cs))
    else if asciiSpace c then trimSpaceStart s cs (start + 1)
    else trimSpaceStop s start s.length

/-- Go `strings.TrimSpace`. -/
def trimSpace (s : GoString) : GoString := trimSpaceStart s s 0

/-- The loop of `trimRightUnicode`: drop the last rune while it is in the cutset.  The fuel
is the number of bytes left. -/
def trimRightAux (cutset : List Nat) : Nat → GoString → GoString
  | 0, s => s
  | k + 1, s =>
    if s.length > 0 then
      let d := if s.getD (s.length - 1) 0 ≥ runeSelf then decodeLastRune s
               else (s.getD (s.length - 1) 0, 1)
      if !cutset.contains d.1 then s else trimRightAux cutset k (s.take (s.length - d.2))
    else s

/-- Go `strings.TrimRight(s, cutset)` for a cutset of several runes, not all ASCII (the
branch `trimRightUnicode`); the cutset is given by its runes. -/
def trimRight (s : GoString) (cutset : List Nat) : GoString :=
  if s = [] ∨ cutset = [] then s else trimRightAux cutset s.length s

/-- Go `strings.Map(unicode.ToLower, s)` with the case table `lowerRune`: every rune of `s`,
an invalid byte counting as `RuneError`, is replaced by the encoding of its image. -/
def mapLower (lowerRune : Nat → Nat) (s : GoString) : GoString :=
  (runes s).flatMap (fun c => encodeRune (lowerRune c))

/-- Go `strings.ToLower`: an ASCII-only string is mapped byte by byte (`A..Z` to `a..z`),
any other string goes through `strings.Map(unicode.ToLower, s)`. -/
def toLower (lowerRune : Nat → Nat) (s : GoString) : GoString :=
  if s.all (fun c => decide (c < runeSelf)) then
    if s.any (fun c => decide (0x41 ≤ c ∧ c ≤ 0x5A)) then
      s.map (fun c => if 0x41 ≤ c ∧ c ≤ 0x5A then c + 0x20 else c)
    else s
  else mapLower lowerRune s

/-! ## Configuration -/

/-- The configuration variables of `main.go` that the pipelines read. -/
structure Config where
  /-- `Keywords`: terms matched case-insensitively. -/
  Keywords : List GoString
  /-- `ContentFilter`: terms matched case-sensitively. -/
  ContentFilter : List GoString
  /-- `LinkBlacklist`: substrings matched case-insensitively. -/
  LinkBlacklist : List GoString
  /-- `MonitorChannels`: the channel allow-list. -/
  MonitorChannels : List Int
  /-- `WhitelistChannels`: the channels that skip the content filter. -/
  WhitelistChannels : List Int

/-! ## extractLinks -/

/-- The function `min` of `main.go`. -/
def min (a b : Int) : Int := if a < b then a else b

/-- The scan `for linkEnd < len(remainingLine)` of `extractLinks`: `linkEnd` advances until a
space, tab, newline or carriage return, or the end of the line.  The first argument is
`remainingLine[linkEnd:]`. -/
def scanLinkEnd : GoString → Nat → Nat
  | [], linkEnd => linkEnd
  | ch :: rest, linkEnd =>
    if ch = 0x20 ∨ ch = 0x09 ∨ ch = 0x0A ∨ ch = 0x0D then linkEnd
    else scanLinkEnd rest (linkEnd + 1)

/-- The runes of the cutset `",.;!?，。；！？、"` of `extractLinks`. -/
def trailingPunct : List Nat :=
  [0x2C, 0x2E, 0x3B, 0x21, 0x3F, 0xFF0C, 0x3002, 0xFF1B, 0xFF01, 0xFF1F, 0x3001]

/-- The value of `startIdx` in `extractLinks` for the current `remainingLine`: the smaller of
the first positions of `"http://"` and `"https://"`, `-1` when there is neither. -/
def schemeStart (remainingLine : GoString) : Int :=
  let httpIdx := index remainingLine (lit "http://")
  let httpsIdx := index remainingLine (lit "https://")
  if httpIdx ≥ 0 ∧ httpsIdx ≥ 0 then min httpIdx httpsIdx
  else if httpIdx ≥ 0 then httpIdx
  else if httpsIdx ≥ 0 then httpsIdx
  else -1

/-- The loop `for len(remainingLine) > 0` of `extractLinks`, with the links collected so far.
One unit of fuel is spent per iteration; `none` means the fuel ran out before the loop
ended. -/
def extractLoop (lowerRune : Nat → Nat) (LinkBlacklist : List GoString) :
    Nat → GoString → List GoString → Option (List GoString)
  | 0, _, _ => none
  | fuel + 1, remainingLine, links =>
    if remainingLine.length > 0 then
      let startIdx := schemeStart remainingLine
      if startIdx < 0 then some links
      else
        let linkStart := startIdx.toNat
        let linkEnd := scanLinkEnd (remainingLine.drop linkStart) linkStart
        let link := trimRight ((remainingLine.drop linkStart).take (linkEnd - linkStart))
          trailingPunct
        let linkLower := toLower lowerRune link
        let isBlacklisted :=
          LinkBlacklist.any (fun blackword => contains linkLower (toLower lowerRune blackword))
        let links := if !isBlacklisted ∧ link.length > 8 then links ++ [link] else links
        extractLoop lowerRune LinkBlacklist fuel (remainingLine.drop linkEnd) links
    else some links

/-- The body of `for _, line := range lines` in `extractLinks`. -/
def extractLine (lowerRune : Nat → Nat) (LinkBlacklist : List GoString)
    (links : List GoString) (line : GoString) : Option (List GoString) :=
  let line := trimSpace line
  if contains line (lit "http://") || contains line (lit "https://") then
    extractLoop lowerRune LinkBlacklist (line.length + 1) line links
  else some links

/-- The loop `for _, line := range lines` of `extractLinks`. -/
def extractLines (lowerRune : Nat → Nat) (LinkBlacklist : List GoString) :
    List GoString → List GoString → Option (List GoString)
  | [], links => some links
  | line :: lines, links =>
    match extractLine lowerRune LinkBlacklist links line with
    | none => none
    | some links => extractLines lowerRune LinkBlacklist lines links

/-- The function `extractLinks` of `main.go`: the links of a text, in order, without the
blacklisted ones. -/
def extractLinks (lowerRune : Nat → Nat) (cfg : Config) (text : GoString) :
    Option (List GoString) :=
  extractLines lowerRune cfg.LinkBlacklist (split 0x0A text) []

/-! ## addSubscription -/

/-- The struct `result` into which `addSubscription` decodes the response body. -/
structure SubResult where
  /-- Field `message` of the response. -/
  Message : GoString
  /-- Field `error` of the response. -/
  Error : GoString

/-- What the HTTP exchange of `addSubscription` comes to: the error text of the first step
that failed (`json.Marshal`, `http.NewRequest`, `client.Do`, `io.ReadAll`), or the status code
and the body that was read. -/
inductive Exchange where
  | marshalError (err : GoString)
  | requestError (err : GoString)
  | doError (err : GoString)
  | readError (err : GoString)
  | response (StatusCode : Int) (body : GoString)

/-- The subscription service as `addSubscription` sees it, over a state `W` of the outside
world: the round trip of one POST for a `sub_url`, and `json.Unmarshal(body, &result)`, which
gives the decoded struct or the text of the decoding error. -/
structure Notifier (W : Type) where
  /-- The POST to `/api/config/add` and the reading of the response. -/
  exchange : W → GoString → Exchange × W
  /-- The decoder `json.Unmarshal` at the type of `result`. -/
  jsonUnmarshal : GoString → Except GoString SubResult

/-- The verb `%d` of `fmt.Sprintf` at an `int`: the decimal digits, with a minus sign for a
negative number. -/
def fmtInt (n : Int) : GoString :=
  if n < 0 then 0x2D :: (Nat.toDigits 10 n.natAbs).map Char.toNat
  else (Nat.toDigits 10 n.toNat).map Char.toNat

/-- The function `addSubscription` of `main.go`: `(success, message)` and the state of the
world after the request. -/
def addSubscription {W : Type} (lowerRune : Nat → Nat) (N : Notifier W) (w : W)
    (subURL : GoString) : (Bool × GoString) × W :=
  match N.exchange w subURL with
  | (Exchange.marshalError err, w) => ((false, lit "JSON 编码失败: " ++ err), w)
  | (Exchange.requestError err, w) => ((false, lit "创建请求失败: " ++ err), w)
  | (Exchange.doError err, w) => ((false, lit "API 请求失败: " ++ err), w)
  | (Exchange.readError err, w) => ((false, lit "读取响应失败: " ++ err), w)
  | (Exchange.response StatusCode body, w) =>
    if StatusCode ≠ 200 then
      ((false, lit "API 返回错误状态码 " ++ fmtInt StatusCode ++ lit ": " ++ body), w)
    else
      match N.jsonUnmarshal body with
      | Except.error err => ((false, lit "解析响应失败: " ++ err), w)
      | Except.ok result =>
        if result.Error ≠ [] then
          if contains result.Error (lit "已存在") ||
              contains (toLower lowerRune result.Error) (lit "already exists") then
            ((false, lit "订阅已存在"), w)
          else ((false, result.Error), w)
        else ((true, result.Message), w)

/-! ## handleMessage -/

/-- The peer of a message (`tg.PeerClass`); `nil` is the nil interface. -/
inductive PeerClass where
  | nil
  | PeerChannel (ChannelID : Int)
  | PeerChat (ChatID : Int)
  | PeerUser (UserID : Int)

/-- The fields of `tg.Message` that the program reads. -/
structure Message where
  /-- The text of the message. -/
  Message : GoString
  /-- The peer the message was sent to. -/
  PeerID : PeerClass
  /-- The date of the message. -/
  Date : Int

/-- One call of `addSubscription`: the link and what the call returned. -/
structure Attempt where
  /-- The link passed as `subURL`. -/
  link : GoString
  /-- The first return value. -/
  success : Bool
  /-- The second return value. -/
  message : GoString

/-- The loop `for _, link := range links` of `handleMessage` and of `fetchChannelHistory`:
one call of `addSubscription` per link, whatever the calls return (the result only selects
the line that is printed). -/
def notifyLinks {W : Type} (lowerRune : Nat → Nat) (N : Notifier W) :
    List GoString → W → List Attempt × W
  | [], w => ([], w)
  | link :: links, w =>
    let r := addSubscription lowerRune N w link
    let rest := notifyLinks lowerRune N links r.2
    (⟨link, r.1.1, r.1.2⟩ :: rest.1, rest.2)

/-- What one run of `handleMessage` did. -/
structure Outcome (W : Type) where
  /-- The result of `extractLinks`, `none` when the message was rejected before the call. -/
  extracted : Option (List GoString)
  /-- The calls of `addSubscription`, in order. -/
  attempts : List Attempt
  /-- The state of the world afterwards. -/
  world : W
  /-- The returned `error`; `none` is `nil`. -/
  err : Option GoString

/-- The variable `channelID` of `handleMessage`: the ID of a channel peer, `0` for a nil
peer and for a peer of another kind. -/
def originChannelID : PeerClass → Int
  | PeerClass.PeerChannel ChannelID => ChannelID
  | _ => 0

/-- The function `handleMessage` of `main.go`.  The lines it prints are left out; they do not
influence the control flow.  The result is `none` only if `extractLinks` ran out of fuel. -/
def handleMessage {W : Type} (lowerRune : Nat → Nat) (cfg : Config) (N : Notifier W) (w : W)
    (msg : Message) : Option (Outcome W) :=
  let messageText := msg.Message
  let channelID := originChannelID msg.PeerID
  if cfg.MonitorChannels.length > 0 ∧ !cfg.MonitorChannels.any (fun id => id == channelID) then
    some ⟨none, [], w, none⟩
  else
    let matched := cfg.Keywords.any
      (fun keyword => contains (toLower lowerRune messageText) (toLower lowerRune keyword))
    if !matched then some ⟨none, [], w, none⟩
    else
      let isWhitelisted := cfg.WhitelistChannels.any (fun whiteID => whiteID == channelID)
      if !isWhitelisted ∧
          !cfg.ContentFilter.any (fun filterWord => contains messageText filterWord) then
        some ⟨none, [], w, none⟩
      else
        match extractLinks lowerRune cfg messageText with
        | none => none
        | some links =>
          if links.length > 0 then
            let r := notifyLinks lowerRune N links w
            some ⟨some links, r.1, r.2, none⟩
          else some ⟨some links, [], w, none⟩

/-! ## fetchChannelHistory -/

/-- An element of a chat list (`tg.ChatClass`): a `*tg.Channel` or another kind. -/
inductive ChatClass where
  | Channel (ID : Int) (AccessHash : Int) (Title : GoString)
  | other

/-- An element of a message list (`tg.MessageClass`): a `*tg.Message` or another kind. -/
inductive MessageClass where
  | Message (msg : Message)
  | other

/-- The answer of `ChannelsGetChannels` (`tg.MessagesChatsClass`). -/
inductive MessagesChatsClass where
  | MessagesChats (Chats : List ChatClass)
  | other

/-- The answer of `MessagesGetDialogs` (`tg.MessagesDialogsClass`). -/
inductive MessagesDialogsClass where
  | MessagesDialogs (Chats : List ChatClass)
  | MessagesDialogsSlice (Chats : List ChatClass)
  | other

/-- The answer of `MessagesGetHistory` (`tg.MessagesMessagesClass`). -/
inductive MessagesMessagesClass where
  | MessagesMessages (Messages : List MessageClass)
  | MessagesMessagesSlice (Messages : List MessageClass)
  | MessagesChannelMessages (Messages : List MessageClass)
  | other

/-- The three calls `fetchChannelHistory` makes on the Telegram client; an error is given by
its text. -/
structure Api where
  /-- The call `ChannelsGetChannels` for a channel ID with access hash 0. -/
  ChannelsGetChannels : Int → Except GoString MessagesChatsClass
  /-- The call `MessagesGetDialogs` with limit 100. -/
  MessagesGetDialogs : Except GoString MessagesDialogsClass
  /-- The call `MessagesGetHistory` with limit 100 for the peer `(ChannelID, AccessHash)`. -/
  MessagesGetHistory : Int → Int → Except GoString MessagesMessagesClass

/-- The loop `for _, chat := range d.Chats` of `fetchChannelHistory`: the access hash of the
first channel of the list with the given ID. -/
def findChannel (channelID : Int) : List ChatClass → Option Int
  | [] => none
  | ChatClass.Channel ID AccessHash _ :: chats =>
    if ID = channelID then some AccessHash else findChannel channelID chats
  | ChatClass.other :: chats => findChannel channelID chats

/-- First part of `fetchChannelHistory`, up to the type switch on `history`: the access hash
is resolved, the history is fetched, and the messages are taken out of the answer. -/
def fetchMessages (api : Api) (channelID : Int) : Except GoString (List MessageClass) :=
  let resolved : Except GoString Int :=
    match api.ChannelsGetChannels channelID with
    | Except.error _ =>
      match api.MessagesGetDialogs with
      | Except.error err => Except.error (lit "获取对话列表失败: " ++ err)
      | Except.ok dialogs =>
        let found :=
          match dialogs with
          | MessagesDialogsClass.MessagesDialogs Chats => findChannel channelID Chats
          | MessagesDialogsClass.MessagesDialogsSlice Chats => findChannel channelID Chats
          | MessagesDialogsClass.other => none
        match found with
        | none =>
          Except.error (lit "未找到频道 " ++ fmtInt channelID ++ lit "，请确认已加入该频道")
        | some accessHash => Except.ok accessHash
    | Except.ok (MessagesChatsClass.MessagesChats (ChatClass.Channel _ AccessHash _ :: _)) =>
      Except.ok AccessHash
    | Except.ok _ => Except.ok 0
  match resolved with
  | Except.error err => Except.error err
  | Except.ok accessHash =>
    match api.MessagesGetHistory channelID accessHash with
    | Except.error err => Except.error (lit "获取历史消息失败: " ++ err)
    | Except.ok (MessagesMessagesClass.MessagesMessages Messages) => Except.ok Messages
    | Except.ok (MessagesMessagesClass.MessagesMessagesSlice Messages) => Except.ok Messages
    | Except.ok (MessagesMessagesClass.MessagesChannelMessages Messages) => Except.ok Messages
    | Except.ok MessagesMessagesClass.other => Except.ok []

/-- What one pass through the body of the loop over `messages` did. -/
structure HistoryStep (W : Type) where
  /-- The result of `extractLinks`, `none` when the pass ended in a `continue` before the
  call. -/
  extracted : Option (List GoString)
  /-- The calls of `addSubscription`, in order. -/
  attempts : List Attempt
  /-- The state of the world afterwards. -/
  world : W

/-- The body of the loop over `messages` in `fetchChannelHistory`, for the element
`messages[i]`.  The printed lines and the counter `matchCount`, which is only printed, are
left out.  The result is `none` only if `extractLinks` ran out of fuel. -/
def historyMessage {W : Type} (lowerRune : Nat → Nat) (cfg : Config) (N : Notifier W)
    (channelID : Int) (w : W) : MessageClass → Option (HistoryStep W)
  | MessageClass.other => some ⟨none, [], w⟩
  | MessageClass.Message msg =>
    let messageText := msg.Message
    if messageText = [] then some ⟨none, [], w⟩
    else
      let matched := cfg.Keywords.any
        (fun keyword => contains (toLower lowerRune messageText) (toLower lowerRune keyword))
      if !matched then some ⟨none, [], w⟩
      else
        let isWhitelisted := cfg.WhitelistChannels.any (fun whiteID => whiteID == channelID)
        if !isWhitelisted ∧
            !cfg.ContentFilter.any (fun filterWord => contains messageText filterWord) then
          some ⟨none, [], w⟩
        else
          match extractLinks lowerRune cfg messageText with
          | none => none
          | some links =>
            if links.length > 0 then
              let r := notifyLinks lowerRune N links w
              some ⟨some links, r.1, r.2⟩
            else some ⟨some links, [], w⟩

/-- The loop `for i := len(messages) - 1; i >= 0; i--` of `fetchChannelHistory`; the counter
is `i + 1`.  An index out of range, which is a panic in Go, gives `none`. -/
def historyLoop {W : Type} (lowerRune : Nat → Nat) (cfg : Config) (N : Notifier W)
    (channelID : Int) (messages : List MessageClass) : Nat → W → Option (List Attempt × W)
  | 0, w => some ([], w)
  | i + 1, w =>
    match messages.get? i with
    | none => none
    | some m =>
      match historyMessage lowerRune cfg N channelID w m with
      | none => none
      | some r =>
        match historyLoop lowerRune cfg N channelID messages i r.world with
        | none => none
        | some rest => some (r.attempts ++ rest.1, rest.2)

/-- What one run of `fetchChannelHistory` did. -/
structure HistoryOutcome (W : Type) where
  /-- The calls of `addSubscription`, in order. -/
  attempts : List Attempt
  /-- The state of the world afterwards. -/
  world : W
  /-- The returned `error`; `none` is `nil`. -/
  err : Option GoString

/-- The function `fetchChannelHistory` of `main.go`.  The result is `none` only if
`extractLinks` ran out of fuel. -/
def fetchChannelHistory {W : Type} (lowerRune : Nat → Nat) (cfg : Config) (N : Notifier W)
    (api : Api) (w : W) (channelID : Int) : Option (HistoryOutcome W) :=
  match fetchMessages api channelID with
  | Except.error err => some ⟨[], w, some err⟩
  | Except.ok messages =>
    match historyLoop lowerRune cfg N channelID messages messages.length w with
    | none => none
    | some r => some ⟨r.1, r.2, none⟩

/-! ## The progress monitor of `main` -/

/-- The local variables `lastDialCount` and `noProgressCount` of the progress goroutine. -/
structure Progress where
  /-- The count seen at the previous tick. -/
  lastDialCount : Int
  /-- The number of ticks without progress. -/
  noProgressCount : Int

/-- The values before the first tick. -/
def Progress.init : Progress := ⟨0, 0⟩

/-- The value of a Go `int` (64 bits on the 64-bit platforms, wrapping around) after an
arithmetic step. -/
def wrapInt (n : Int) : Int := (n + 2 ^ 63) % 2 ^ 64 - 2 ^ 63

/-- One pass through `case <-ticker.C`, where `dialCount` is the value of the shared counter
that the pass reads: the new variables, and whether the stall warning was printed. -/
def Progress.tick (s : Progress) (dialCount : Int) : Progress × Bool :=
  if dialCount = s.lastDialCount then
    let noProgressCount := wrapInt (s.noProgressCount + 1)
    (⟨dialCount, noProgressCount⟩, decide (noProgressCount ≥ 6))
  else (⟨dialCount, 0⟩, false)

/-- The ticks of the progress goroutine for the counts read at successive ticks: for each
tick, whether the stall warning was printed; and the variables after the last tick. -/
def Progress.run : Progress → List Int → List Bool × Progress
  | s, [] => ([], s)
  | s, dialCount :: rest =>
    let r := Progress.run (s.tick dialCount).1 rest
    ((s.tick dialCount).2 :: r.1, r.2)

/-! ## The claims in the words of the specification -/

/-- The keyword and content conditions on a text from a channel: some keyword is a
substring of the text, both lower-cased; and the channel is whitelisted or some content-filter
term is a substring of the text. -/
def matchesContent (lowerRune : Nat → Nat) (cfg : Config) (channelID : Int)
    (text : GoString) : Prop :=
  (∃ keyword ∈ cfg.Keywords, toLower lowerRune keyword <:+: toLower lowerRune text) ∧
  (channelID ∈ cfg.WhitelistChannels ∨ ∃ term ∈ cfg.ContentFilter, term <:+: text)

instance (lowerRune : Nat → Nat) (cfg : Config) (channelID : Int) (text : GoString) :
    Decidable (matchesContent lowerRune cfg channelID text) := by
  unfold matchesContent
  infer_instance

/-- The three conditions under which a live message reaches link extraction: the allow-list
is empty or has the channel; some keyword is a substring of the text, both lower-cased; the
channel is whitelisted or some content-filter term is a substring of the text. -/
def passesFilter (lowerRune : Nat → Nat) (cfg : Config) (channelID : Int)
    (text : GoString) : Prop :=
  (cfg.MonitorChannels = [] ∨ channelID ∈ cfg.MonitorChannels) ∧
    matchesContent lowerRune cfg channelID text

instance (lowerRune : Nat → Nat) (cfg : Config) (channelID : Int) (text : GoString) :
    Decidable (passesFilter lowerRune cfg channelID text) := by
  unfold passesFilter
  infer_instance

/-- The links a fetched message contributes to the backfill of a channel: the links of its
text when it is a message with a non-empty text that meets the keyword and content
conditions, none otherwise. -/
def messageLinks (lowerRune : Nat → Nat) (cfg : Config) (channelID : Int) :
    MessageClass → List GoString
  | MessageClass.other => []
  | MessageClass.Message msg =>
    if msg.Message ≠ [] ∧ matchesContent lowerRune cfg channelID msg.Message then
      (extractLinks lowerRune cfg msg.Message).getD []
    else []

/-- The world after one POST per link, in the order of the list, each request meeting the
world that the request before it left. -/
def worldAfter {W : Type} (N : Notifier W) (w : W) (links : List GoString) : W :=
  links.foldl (fun w link => (N.exchange w link).2) w

/-- One call of `addSubscription` per link, in the order of the list: the call for the link
at position `i` is made in the world left by the requests for the links before it, and its
two return values are recorded. -/
def callsInOrder {W : Type} (lowerRune : Nat → Nat) (N : Notifier W) (w : W)
    (links : List GoString) : List Attempt :=
  (List.range links.length).map (fun i =>
    ⟨links.getD i [],
      (addSubscription lowerRune N (worldAfter N w (links.take i)) (links.getD i [])).1.1,
      (addSubscription lowerRune N (worldAfter N w (links.take i)) (links.getD i [])).1.2⟩)

/-- The link begins with one of the two scheme markers. -/
def hasScheme (link : GoString) : Prop :=
  lit "http://" <+: link ∨ lit "https://" <+: link

/-- A link that `extractLinks` may return: longer than 8 bytes, and no lower-cased blacklist
entry is a substring of its lower-cased form. -/
def linkOk (lowerRune : Nat → Nat) (LinkBlacklist : List GoString) (link : GoString) : Prop :=
  8 < link.length ∧
    ∀ blackword ∈ LinkBlacklist, ¬ toLower lowerRune blackword <:+: toLower lowerRune link

/-! ## Sample inputs -/

/-- The decoding by `encoding/json` of the two sample responses of the specification,
`\x7b"error":"already exists"\x7d` and `\x7b"message":"created"\x7d`; used to instantiate the
decoder on these two bodies only, any other body counts as not decodable. -/
def sampleUnmarshal (body : GoString) : Except GoString SubResult :=
  if body = lit "\x7b\"error\":\"already exists\"\x7d" then
    Except.ok ⟨[], lit "already exists"⟩
  else if body = lit "\x7b\"message\":\"created\"\x7d" then
    Except.ok ⟨lit "created", []⟩
  else Except.error (lit "invalid character")

/-- A service that answers every request with the same status code and body; the state of
the world counts the requests. -/
def constNotifier (StatusCode : Int) (body : GoString) : Notifier Nat :=
  ⟨fun w _ => (Exchange.response StatusCode body, w + 1), sampleUnmarshal⟩

/-- The sample text of the specification for the link extractor. -/
def sampleText : GoString :=
  lit "check https://a.example.com/x, and https://blocked.test/y"

/-- The body `\x7b"message":"created"\x7d` of the sample success response. -/
def createdBody : GoString := lit "\x7b\"message\":\"created\"\x7d"

/-- A configuration whose only keyword is the empty string, with channel 42 monitored and
whitelisted. -/
def emptyKeywordConfig : Config := ⟨[[]], [], [], [42], [42]⟩

/-- A service whose first request fails in `client.Do` and whose later requests are answered
with status 200 and the sample success body; the state of the world counts the requests. -/
def failFirstNotifier : Notifier Nat :=
  ⟨fun w _ =>
      (if w = 0 then Exchange.doError (lit "timeout") else Exchange.response 200 createdBody,
        w + 1),
    sampleUnmarshal⟩

/-- A configuration for the worked examples: keyword `Sub`, content-filter term `订阅`,
`blocked.test` blacklisted, channel 42 monitored and whitelisted. -/
def sampleConfig : Config :=
  ⟨[lit "Sub"], [lit "订阅"], [lit "blocked.test"], [42], [42]⟩

/-- Three fetched messages of channel 42, most recent first, each with a keyword and one
link. -/
def sampleHistory : List MessageClass :=
  [MessageClass.Message ⟨lit "sub https://a.example.com/3", PeerClass.PeerChannel 42, 30⟩,
   MessageClass.Message ⟨lit "SUB https://a.example.com/2", PeerClass.PeerChannel 42, 20⟩,
   MessageClass.Message ⟨lit "new sub: https://a.example.com/1.", PeerClass.PeerChannel 42, 10⟩]

/-- A Telegram client on which channel 42 resolves directly and whose history is
`sampleHistory`. -/
def sampleApi : Api :=
  ⟨fun channelID =>
      Except.ok (MessagesChatsClass.MessagesChats [ChatClass.Channel channelID 7 (lit "news")]),
    Except.error (lit "unused"),
    fun _ _ => Except.ok (MessagesMessagesClass.MessagesChannelMessages sampleHistory)⟩

/-! ## The stall warning in the words of the specification -/

/-- The count read at the last tick, `last` when there was no tick yet. -/
def lastCount (last : Int) : List Int → Int
  | [] => last
  | dialCount :: rest => lastCount dialCount rest

/-- For each tick, whether it is a no-progress tick: the count read is the one of the tick
before (`last` for the first tick). -/
def noProgressTicks (last : Int) : List Int → List Bool
  | [] => []
  | dialCount :: rest => decide (dialCount = last) :: noProgressTicks dialCount rest

/-- The length of the unbroken run of no-progress ticks that ends with the last tick. -/
def stallLength (last : Int) (counts : List Int) : Nat :=
  ((noProgressTicks last counts).reverse.takeWhile id).length

/-! ## Lemmas on the string functions -/

theorem lit_http : lit "http://" = [104, 116, 116, 112, 58, 47, 47] := by decide

theorem lit_https : lit "https://" = [104, 116, 116, 112, 115, 58, 47, 47] := by decide

theorem lit_statusPrefix : ∃ t, lit "API 返回错误状态码 " = 65 :: t := ⟨_, rfl⟩

theorem lit_alreadyExists : ∃ t, lit "订阅已存在" = 232 :: t := ⟨_, rfl⟩

theorem hasPrefix_iff (s pre : GoString) : hasPrefix s pre = true ↔ pre <+: s := by
  unfold hasPrefix
  exact List.isPrefixOf_iff_prefix

theorem indexFrom_cases (sub : GoString) : ∀ (s : GoString) (i : Nat),
    indexFrom sub s i = -1 ∨
      ∃ k : Nat, indexFrom sub s i = ((i + k : Nat) : Int) ∧ hasPrefix (s.drop k) sub = true
  | [], i => by
    unfold indexFrom
    by_cases h : hasPrefix [] sub = true
    · right
      exact ⟨0, by simp [h], by simpa using h⟩
    · left
      simp [h]
  | c :: cs, i => by
    unfold indexFrom
    by_cases h : hasPrefix (c :: cs) sub = true
    · right
      exact ⟨0, by simp [h], by simpa using h⟩
    · rcases indexFrom_cases sub cs (i + 1) with h1 | ⟨k, hk, hp⟩
      · left
        simp [h, h1]
      · right
        refine ⟨k + 1, ?_, by simpa using hp⟩
        simp only [h, Bool.false_eq_true, if_false, hk]
        push_cast
        ring

theorem indexFrom_of_infix (sub : GoString) : ∀ (s : GoString) (i : Nat),
    sub <:+: s → 0 ≤ indexFrom sub s i
  | [], i, h => by
    unfold indexFrom
    have : sub = [] := List.eq_nil_of_infix_nil h
    subst this
    simp [hasPrefix]
  | c :: cs, i, h => by
    unfold indexFrom
    by_cases hp : hasPrefix (c :: cs) sub = true
    · simp [hp]
    · simp only [hp, Bool.false_eq_true, if_false]
      rcases List.infix_cons_iff.mp h with h1 | h1
      · exact absurd ((hasPrefix_iff _ _).mpr h1) hp
      · exact indexFrom_of_infix sub cs (i + 1) h1

/-- Go `strings.Contains` decides the substring relation. -/
theorem contains_iff (s sub : GoString) : contains s sub = true ↔ sub <:+: s := by
  unfold contains index
  rw [decide_eq_true_iff]
  constructor
  · intro h
    rcases indexFrom_cases sub s 0 with h1 | ⟨k, _, hp⟩
    · rw [h1] at h
      exact absurd h (by decide)
    · have h2 : sub <+: s.drop k := (hasPrefix_iff _ _).mp hp
      exact h2.isInfix.trans (List.drop_suffix k s).isInfix
  · intro h
    exact indexFrom_of_infix sub s 0 h

theorem decodeRune_width_pos (s : GoString) (h : s ≠ []) : 1 ≤ (decodeRune s).2 := by
  cases s with
  | nil => exact absurd rfl h
  | cons s0 rest =>
    simp only [decodeRune]
    repeat' split
    all_goals simp

theorem lastRuneScan_le (s : GoString) (lim : Nat) : ∀ n, lastRuneScan s lim n ≤ n
  | 0 => by simp [lastRuneScan]
  | n + 1 => by
    unfold lastRuneScan
    split
    · exact le_rfl
    · split
      · exact le_rfl
      · exact Nat.le_succ_of_le (lastRuneScan_le s lim n)

theorem lastRune_pick (n start : Nat) (d : Nat × Nat) (hs : start < n) :
    1 ≤ (if start + d.2 ≠ n then (runeError, 1) else d).2 ∧
      (if start + d.2 ≠ n then (runeError, 1) else d).2 ≤ n := by
  split
  · exact ⟨le_rfl, by omega⟩
  · rename_i h
    rw [ne_eq, not_not] at h
    constructor <;> omega

theorem decodeLastRune_width (s : GoString) (h : s ≠ []) :
    1 ≤ (decodeLastRune s).2 ∧ (decodeLastRune s).2 ≤ s.length := by
  have hpos : 0 < s.length := List.length_pos.mpr h
  have hscan := lastRuneScan_le s (s.length - 4) (s.length - 1)
  unfold decodeLastRune
  simp only []
  rw [if_neg (by omega)]
  by_cases h1 : s.getD (s.length - 1) 0 < runeSelf
  · rw [if_pos h1]
    exact ⟨le_rfl, hpos⟩
  · rw [if_neg h1]
    apply lastRune_pick
    split <;> omega

/-- The loop of `trimRightUnicode` does not depend on the fuel once there is as much fuel as
there are bytes. -/
theorem trimRightAux_fuel (cutset : List Nat) : ∀ (k1 k2 : Nat) (s : GoString),
    s.length ≤ k1 → s.length ≤ k2 → trimRightAux cutset k1 s = trimRightAux cutset k2 s
  | 0, k2, s, h1, _ => by
    have hs : s = [] := List.length_eq_zero.mp (Nat.le_zero.mp h1)
    subst hs
    cases k2 <;> simp [trimRightAux]
  | k1 + 1, 0, s, _, h2 => by
    have hs : s = [] := List.length_eq_zero.mp (Nat.le_zero.mp h2)
    subst hs
    simp [trimRightAux]
  | k1 + 1, k2 + 1, s, h1, h2 => by
    rw [trimRightAux, trimRightAux]
    by_cases h0 : s.length > 0
    · simp only [h0, if_true]
      have hd : 1 ≤ (if s.getD (s.length - 1) 0 ≥ runeSelf then decodeLastRune s
          else (s.getD (s.length - 1) 0, 1)).2 := by
        split
        · exact (decodeLastRune_width s (List.length_pos.mp h0)).1
        · exact le_rfl
      generalize (if s.getD (s.length - 1) 0 ≥ runeSelf then decodeLastRune s
          else (s.getD (s.length - 1) 0, 1)) = d at hd ⊢
      by_cases hc : (!cutset.contains d.1) = true
      · rw [if_pos hc, if_pos hc]
      · rw [if_neg hc, if_neg hc]
        apply trimRightAux_fuel cutset k1 k2
        · rw [List.length_take]
          omega
        · rw [List.length_take]
          omega
    · simp only [h0, if_false]

/-- The decoding of `range s` does not depend on the fuel once there is as much fuel as
there are bytes. -/
theorem runesAux_fuel : ∀ (k1 k2 : Nat) (s : GoString),
    s.length ≤ k1 → s.length ≤ k2 → runesAux k1 s = runesAux k2 s
  | 0, k2, s, h1, _ => by
    have hs : s = [] := List.length_eq_zero.mp (Nat.le_zero.mp h1)
    subst hs
    cases k2 <;> rfl
  | k1 + 1, 0, s, _, h2 => by
    have hs : s = [] := List.length_eq_zero.mp (Nat.le_zero.mp h2)
    subst hs
    rfl
  | k1 + 1, k2 + 1, s, h1, h2 => by
    rw [runesAux, runesAux]
    by_cases h0 : s.length > 0
    · rw [if_pos h0, if_pos h0]
      have hw := decodeRune_width_pos s (List.length_pos.mp h0)
      generalize decodeRune s = d at hw ⊢
      congr 1
      apply runesAux_fuel k1 k2
      · rw [List.length_drop]
        omega
      · rw [List.length_drop]
        omega
    · rw [if_neg h0, if_neg h0]

/-- The loop of `TrimLeftFunc` does not depend on the fuel once there is as much fuel as
there are bytes. -/
theorem trimLeftSpaceAux_fuel : ∀ (k1 k2 : Nat) (s : GoString),
    s.length ≤ k1 → s.length ≤ k2 → trimLeftSpaceAux k1 s = trimLeftSpaceAux k2 s
  | 0, k2, s, h1, _ => by
    have hs : s = [] := List.length_eq_zero.mp (Nat.le_zero.mp h1)
    subst hs
    cases k2 <;> rfl
  | k1 + 1, 0, s, _, h2 => by
    have hs : s = [] := List.length_eq_zero.mp (Nat.le_zero.mp h2)
    subst hs
    rfl
  | k1 + 1, k2 + 1, s, h1, h2 => by
    rw [trimLeftSpaceAux, trimLeftSpaceAux]
    by_cases h0 : s.length > 0
    · rw [if_pos h0, if_pos h0]
      have hw := decodeRune_width_pos s (List.length_pos.mp h0)
      generalize decodeRune s = d at hw ⊢
      by_cases hc : isSpace d.1 = true
      · rw [if_pos hc, if_pos hc]
        apply trimLeftSpaceAux_fuel k1 k2
        · rw [List.length_drop]
          omega
        · rw [List.length_drop]
          omega
      · rw [if_neg hc, if_neg hc]
    · rw [if_neg h0, if_neg h0]

/-- The loop of `lastIndexFunc` does not depend on the fuel once there is as much fuel as
there are bytes before `i`. -/
theorem lastNonSpaceAux_fuel (s : GoString) : ∀ (k1 k2 i : Nat),
    i ≤ k1 → i ≤ k2 → i ≤ s.length → lastNonSpaceAux s k1 i = lastNonSpaceAux s k2 i
  | 0, k2, i, h1, _, _ => by
    have hi : i = 0 := Nat.le_zero.mp h1
    subst hi
    cases k2 <;> simp [lastNonSpaceAux]
  | k1 + 1, 0, i, _, h2, _ => by
    have hi : i = 0 := Nat.le_zero.mp h2
    subst hi
    simp [lastNonSpaceAux]
  | k1 + 1, k2 + 1, i, h1, h2, h3 => by
    rw [lastNonSpaceAux, lastNonSpaceAux]
    by_cases h0 : i = 0
    · rw [if_pos h0, if_pos h0]
    · rw [if_neg h0, if_neg h0]
      have hne : s.take i ≠ [] := by
        intro h
        rcases List.take_eq_nil_iff.mp h with h | h
        · exact h0 h
        · subst h
          exact h0 (Nat.le_zero.mp h3)
      have hw := (decodeLastRune_width (s.take i) hne).1
      simp only []
      generalize decodeLastRune (s.take i) = d at hw ⊢
      by_cases hc : (!isSpace d.1) = true
      · rw [if_pos hc, if_pos hc]
      · rw [if_neg hc, if_neg hc]
        exact lastNonSpaceAux_fuel s k1 k2 _ (by omega) (by omega) (by omega)

theorem index_cases (s sub : GoString) :
    index s sub = -1 ∨ ∃ k : Nat, index s sub = (k : Int) ∧ sub <+: s.drop k := by
  rcases indexFrom_cases sub s 0 with h | ⟨k, hk, hp⟩
  · left
    exact h
  · right
    exact ⟨k, by simpa [index] using hk, (hasPrefix_iff _ _).mp hp⟩

/-- A non-negative `startIdx` is the position of a scheme marker. -/
theorem schemeStart_cases (rem : GoString) :
    schemeStart rem = -1 ∨
      ∃ k : Nat, schemeStart rem = (k : Int) ∧
        (lit "http://" <+: rem.drop k ∨ lit "https://" <+: rem.drop k) := by
  unfold schemeStart
  rcases index_cases rem (lit "http://") with h1 | ⟨k1, h1, p1⟩ <;>
    rcases index_cases rem (lit "https://") with h2 | ⟨k2, h2, p2⟩
  · left
    simp [h1, h2]
  · right
    exact ⟨k2, by simp [h1, h2], Or.inr p2⟩
  · right
    exact ⟨k1, by simp [h1, h2], Or.inl p1⟩
  · right
    by_cases hlt : (k1 : Int) < (k2 : Int)
    · exact ⟨k1, by simp [h1, h2, min, hlt], Or.inl p1⟩
    · exact ⟨k2, by simp [h1, h2, min, hlt], Or.inr p2⟩

theorem le_scanLinkEnd : ∀ (s : GoString) (n : Nat), n ≤ scanLinkEnd s n
  | [], n => by simp [scanLinkEnd]
  | ch :: rest, n => by
    unfold scanLinkEnd
    split
    · exact le_rfl
    · exact Nat.le_of_succ_le (le_scanLinkEnd rest (n + 1))

/-- The scan moves past the first byte of a scheme marker. -/
theorem lt_scanLinkEnd (rem : GoString) (k : Nat)
    (h : lit "http://" <+: rem.drop k ∨ lit "https://" <+: rem.drop k) :
    k < scanLinkEnd (rem.drop k) k := by
  have hh : ∃ rest, rem.drop k = 104 :: rest := by
    rcases h with ⟨t, ht⟩ | ⟨t, ht⟩
    · rw [lit_http] at ht
      exact ⟨_, ht.symm⟩
    · rw [lit_https] at ht
      exact ⟨_, ht.symm⟩
  obtain ⟨rest, hr⟩ := hh
  rw [hr]
  unfold scanLinkEnd
  simp only [show ¬ ((104 : Nat) = 0x20 ∨ (104 : Nat) = 0x09 ∨ (104 : Nat) = 0x0A ∨
    (104 : Nat) = 0x0D) by decide, if_false]
  exact le_scanLinkEnd rest (k + 1)

/-- With more fuel than bytes the loop ends, and it only adds admissible links. -/
theorem extractLoop_spec (lowerRune : Nat → Nat) (bl : List GoString) :
    ∀ (fuel : Nat) (rem : GoString) (links : List GoString), rem.length < fuel →
      (∀ l ∈ links, linkOk lowerRune bl l) →
      ∃ r, extractLoop lowerRune bl fuel rem links = some r ∧ ∀ l ∈ r, linkOk lowerRune bl l
  | 0, _, _, h, _ => absurd h (Nat.not_lt_zero _)
  | fuel + 1, rem, links, hlen, hok => by
    rw [extractLoop]
    by_cases h0 : rem.length > 0
    · simp only [h0, if_true]
      rcases schemeStart_cases rem with hs | ⟨k, hs, hp⟩
      · exact ⟨links, by simp [hs], hok⟩
      · have hnot : ¬ ((k : Int) < 0) := by omega
        simp only [hs, hnot, if_false, Int.toNat_ofNat]
        have hk := lt_scanLinkEnd rem k hp
        apply extractLoop_spec lowerRune bl fuel
        · rw [List.length_drop]
          omega
        · intro l hl
          split at hl
          · rename_i hc
            rcases List.mem_append.mp hl with h1 | h1
            · exact hok l h1
            · rw [List.mem_singleton] at h1
              subst h1
              refine ⟨hc.2, ?_⟩
              intro b hb hinf
              have hc1 := hc.1
              simp only [Bool.not_eq_true', List.any_eq_false] at hc1
              exact hc1 b hb ((contains_iff _ _).mpr hinf)
          · exact hok l hl
    · exact ⟨links, by simp [h0], hok⟩

theorem extractLine_spec (lowerRune : Nat → Nat) (bl : List GoString)
    (links : List GoString) (line : GoString) (hok : ∀ l ∈ links, linkOk lowerRune bl l) :
    ∃ r, extractLine lowerRune bl links line = some r ∧ ∀ l ∈ r, linkOk lowerRune bl l := by
  unfold extractLine
  simp only []
  split
  · exact extractLoop_spec lowerRune bl _ _ links (Nat.lt_succ_self _) hok
  · exact ⟨links, rfl, hok⟩

theorem extractLines_spec (lowerRune : Nat → Nat) (bl : List GoString) :
    ∀ (lines : List GoString) (links : List GoString), (∀ l ∈ links, linkOk lowerRune bl l) →
      ∃ r, extractLines lowerRune bl lines links = some r ∧ ∀ l ∈ r, linkOk lowerRune bl l
  | [], links, hok => ⟨links, rfl, hok⟩
  | line :: lines, links, hok => by
    obtain ⟨r, hr, hr2⟩ := extractLine_spec lowerRune bl links line hok
    rw [extractLines, hr]
    exact extractLines_spec lowerRune bl lines r hr2

/-- The function `extractLinks` returns on every text. -/
theorem extractLinks_total (lowerRune : Nat → Nat) (cfg : Config) (text : GoString) :
    ∃ links, extractLinks lowerRune cfg text = some links := by
  obtain ⟨r, hr, _⟩ := extractLines_spec lowerRune cfg.LinkBlacklist (split 0x0A text) []
    (by simp)
  exact ⟨r, hr⟩

/-! ## Lemmas on the pipelines -/

theorem any_beq_iff (l : List Int) (c : Int) :
    l.any (fun id => id == c) = true ↔ c ∈ l := by
  simp [List.any_eq_true]

theorem any_contains_iff (l : List GoString) (f : GoString → GoString) (t : GoString) :
    l.any (fun x => contains t (f x)) = true ↔ ∃ x ∈ l, f x <:+: t := by
  simp [List.any_eq_true, contains_iff]

/-- The allow-list test of `handleMessage` rejects exactly the channels outside a non-empty
allow-list. -/
theorem allowList_iff (cfg : Config) (channelID : Int) :
    (cfg.MonitorChannels.length > 0 ∧
      (!cfg.MonitorChannels.any fun id => id == channelID) = true) ↔
      ¬ (cfg.MonitorChannels = [] ∨ channelID ∈ cfg.MonitorChannels) := by
  rw [Bool.not_eq_true', ← Bool.not_eq_true, any_beq_iff, gt_iff_lt, List.length_pos, not_or]

/-- The keyword test of both pipelines. -/
theorem keyword_iff (lowerRune : Nat → Nat) (cfg : Config) (text : GoString) :
    ((!cfg.Keywords.any fun keyword =>
      contains (toLower lowerRune text) (toLower lowerRune keyword)) = true) ↔
      ¬ ∃ keyword ∈ cfg.Keywords, toLower lowerRune keyword <:+: toLower lowerRune text := by
  rw [Bool.not_eq_true', ← Bool.not_eq_true,
    any_contains_iff cfg.Keywords (toLower lowerRune) (toLower lowerRune text)]

/-- The whitelist and content-filter test of both pipelines. -/
theorem content_iff (cfg : Config) (channelID : Int) (text : GoString) :
    ((!cfg.WhitelistChannels.any fun whiteID => whiteID == channelID) = true ∧
      (!cfg.ContentFilter.any fun filterWord => contains text filterWord) = true) ↔
      ¬ (channelID ∈ cfg.WhitelistChannels ∨ ∃ term ∈ cfg.ContentFilter, term <:+: text) := by
  rw [Bool.not_eq_true', ← Bool.not_eq_true, any_beq_iff, Bool.not_eq_true',
    ← Bool.not_eq_true, any_contains_iff cfg.ContentFilter (fun x => x) text, not_or]

theorem notifyLinks_nil {W : Type} (lowerRune : Nat → Nat) (N : Notifier W) (w : W) :
    notifyLinks lowerRune N [] w = ([], w) := rfl

/-- The notification loop makes one attempt per link, in the order of the list. -/
theorem notifyLinks_links {W : Type} (lowerRune : Nat → Nat) (N : Notifier W) :
    ∀ (links : List GoString) (w : W),
      (notifyLinks lowerRune N links w).1.map Attempt.link = links
  | [], _ => rfl
  | link :: links, w => by
    simp only [notifyLinks, List.map_cons]
    rw [notifyLinks_links lowerRune N links]

/-- The notification loop over a concatenation is the loop over the first list followed by
the loop over the second. -/
theorem notifyLinks_append {W : Type} (lowerRune : Nat → Nat) (N : Notifier W) :
    ∀ (xs ys : List GoString) (w : W),
      notifyLinks lowerRune N (xs ++ ys) w =
        ((notifyLinks lowerRune N xs w).1 ++
            (notifyLinks lowerRune N ys (notifyLinks lowerRune N xs w).2).1,
          (notifyLinks lowerRune N ys (notifyLinks lowerRune N xs w).2).2)
  | [], ys, w => by simp [notifyLinks]
  | x :: xs, ys, w => by
    simp only [List.cons_append, notifyLinks, List.append_eq]
    rw [notifyLinks_append lowerRune N xs ys]

theorem extractLinks_nil (lowerRune : Nat → Nat) (cfg : Config) :
    extractLinks lowerRune cfg [] = some [] := rfl

/-- A live message that passes the filter: its links are extracted and notified. -/
theorem handleMessage_pass {W : Type} (lowerRune : Nat → Nat) (cfg : Config)
    (N : Notifier W) (w : W) (msg : Message) (links : List GoString)
    (hl : extractLinks lowerRune cfg msg.Message = some links)
    (hp : passesFilter lowerRune cfg (originChannelID msg.PeerID) msg.Message) :
    handleMessage lowerRune cfg N w msg =
      some ⟨some links, (notifyLinks lowerRune N links w).1,
        (notifyLinks lowerRune N links w).2, none⟩ := by
  have e1 := allowList_iff cfg (originChannelID msg.PeerID)
  have e2 := keyword_iff lowerRune cfg msg.Message
  have e3 := content_iff cfg (originChannelID msg.PeerID) msg.Message
  unfold handleMessage
  simp only [hl]
  split_ifs with h1 h2 h3 h4
  · exact absurd hp.1 (e1.mp h1)
  · exact absurd hp.2.1 (e2.mp h2)
  · exact absurd hp.2.2 (e3.mp h3)
  · rfl
  · have : links = [] := by
      cases links with
      | nil => rfl
      | cons a l => exact absurd (Nat.succ_pos _) h4
    subst this
    rfl

/-- A live message that fails the filter: nothing is extracted, nothing is notified. -/
theorem handleMessage_reject {W : Type} (lowerRune : Nat → Nat) (cfg : Config)
    (N : Notifier W) (w : W) (msg : Message)
    (hp : ¬ passesFilter lowerRune cfg (originChannelID msg.PeerID) msg.Message) :
    handleMessage lowerRune cfg N w msg = some ⟨none, [], w, none⟩ := by
  have e1 := allowList_iff cfg (originChannelID msg.PeerID)
  have e2 := keyword_iff lowerRune cfg msg.Message
  have e3 := content_iff cfg (originChannelID msg.PeerID) msg.Message
  unfold handleMessage
  simp only []
  split_ifs with h1 h2 h3
  · rfl
  · rfl
  · rfl
  · rw [e1, not_not] at h1
    rw [e2, not_not] at h2
    rw [e3, not_not] at h3
    exact absurd ⟨h1, h2, h3⟩ hp

/-- A call of `addSubscription` leaves the world that its one HTTP exchange leaves. -/
theorem addSubscription_world {W : Type} (lowerRune : Nat → Nat) (N : Notifier W) (w : W)
    (subURL : GoString) :
    (addSubscription lowerRune N w subURL).2 = (N.exchange w subURL).2 := by
  unfold addSubscription
  rcases N.exchange w subURL with ⟨e, w1⟩
  cases e with
  | marshalError err => rfl
  | requestError err => rfl
  | doError err => rfl
  | readError err => rfl
  | response StatusCode body =>
    simp only []
    split
    · rfl
    · split
      · rfl
      · split
        · split <;> rfl
        · rfl

/-- The notification loop makes the calls of `callsInOrder` and leaves the world of
`worldAfter`. -/
theorem notifyLinks_calls {W : Type} (lowerRune : Nat → Nat) (N : Notifier W) :
    ∀ (links : List GoString) (w : W),
      notifyLinks lowerRune N links w = (callsInOrder lowerRune N w links, worldAfter N w links)
  | [], _ => rfl
  | link :: links, w => by
    rw [notifyLinks]
    simp only [notifyLinks_calls lowerRune N links, callsInOrder, worldAfter,
      List.length_cons, List.range_succ_eq_map, List.map_cons, List.map_map,
      List.foldl_cons, addSubscription_world, List.take_zero, List.foldl_nil,
      List.getD_cons_zero, Prod.mk.injEq, List.cons.injEq, true_and, and_true]
    apply List.map_congr_left
    intro i _
    simp only [Function.comp, List.getD_cons_succ, List.take_succ_cons, List.foldl_cons]

/-- A fetched message with a non-empty text that meets the keyword and content conditions:
its links are extracted and notified. -/
theorem historyMessage_pass {W : Type} (lowerRune : Nat → Nat) (cfg : Config) (N : Notifier W)
    (channelID : Int) (w : W) (msg : Message) (links : List GoString)
    (hl : extractLinks lowerRune cfg msg.Message = some links)
    (h0 : msg.Message ≠ [])
    (hc : matchesContent lowerRune cfg channelID msg.Message) :
    historyMessage lowerRune cfg N channelID w (MessageClass.Message msg) =
      some ⟨some links, (notifyLinks lowerRune N links w).1,
        (notifyLinks lowerRune N links w).2⟩ := by
  have e2 := keyword_iff lowerRune cfg msg.Message
  have e3 := content_iff cfg channelID msg.Message
  unfold historyMessage
  simp only [hl]
  split_ifs with h1 h2 h3 h4
  · exact absurd h1 h0
  · exact absurd hc.1 (e2.mp h2)
  · exact absurd hc.2 (e3.mp h3)
  · rfl
  · have : links = [] := by
      cases links with
      | nil => rfl
      | cons a l => exact absurd (Nat.succ_pos _) h4
    subst this
    rfl

/-- A fetched message with an empty text, or one that fails the keyword or content
conditions: the pass ends in a `continue`, nothing is extracted or notified. -/
theorem historyMessage_skip {W : Type} (lowerRune : Nat → Nat) (cfg : Config) (N : Notifier W)
    (channelID : Int) (w : W) (msg : Message)
    (hc : ¬ (msg.Message ≠ [] ∧ matchesContent lowerRune cfg channelID msg.Message)) :
    historyMessage lowerRune cfg N channelID w (MessageClass.Message msg) =
      some ⟨none, [], w⟩ := by
  obtain ⟨links, hl⟩ := extractLinks_total lowerRune cfg msg.Message
  have e2 := keyword_iff lowerRune cfg msg.Message
  have e3 := content_iff cfg channelID msg.Message
  unfold historyMessage
  simp only [hl]
  split_ifs with h0 h2 h3 h4
  · rfl
  · rfl
  · rfl
  · rw [e2, not_not] at h2
    rw [e3, not_not] at h3
    exact absurd ⟨h0, h2, h3⟩ hc
  · rw [e2, not_not] at h2
    rw [e3, not_not] at h3
    exact absurd ⟨h0, h2, h3⟩ hc

/-- The loop body of the backfill notifies exactly the links the message contributes. -/
theorem historyMessage_eq {W : Type} (lowerRune : Nat → Nat) (cfg : Config) (N : Notifier W)
    (channelID : Int) (w : W) (m : MessageClass) :
    ∃ r, historyMessage lowerRune cfg N channelID w m = some r ∧
      r.attempts = (notifyLinks lowerRune N (messageLinks lowerRune cfg channelID m) w).1 ∧
      r.world = (notifyLinks lowerRune N (messageLinks lowerRune cfg channelID m) w).2 := by
  cases m with
  | other => exact ⟨_, rfl, rfl, rfl⟩
  | Message msg =>
    obtain ⟨links, hl⟩ := extractLinks_total lowerRune cfg msg.Message
    by_cases hc : msg.Message ≠ [] ∧ matchesContent lowerRune cfg channelID msg.Message
    · have hm : messageLinks lowerRune cfg channelID (MessageClass.Message msg) = links := by
        rw [messageLinks, if_pos hc, hl]
        rfl
      rw [hm]
      exact ⟨_, historyMessage_pass lowerRune cfg N channelID w msg links hl hc.1 hc.2,
        rfl, rfl⟩
    · have hm : messageLinks lowerRune cfg channelID (MessageClass.Message msg) = [] := by
        rw [messageLinks, if_neg hc]
      rw [hm]
      exact ⟨_, historyMessage_skip lowerRune cfg N channelID w msg hc, rfl, rfl⟩

/-- The backfill loop from index `i - 1` down to `0` notifies the links of
`messages[i-1], ..., messages[0]` in that order. -/
theorem historyLoop_eq {W : Type} (lowerRune : Nat → Nat) (cfg : Config) (N : Notifier W)
    (channelID : Int) (messages : List MessageClass) :
    ∀ (i : Nat) (w : W), i ≤ messages.length →
      historyLoop lowerRune cfg N channelID messages i w =
        some (notifyLinks lowerRune N
          ((messages.take i).reverse.flatMap (messageLinks lowerRune cfg channelID)) w)
  | 0, w, _ => rfl
  | i + 1, w, hi => by
    have hlt : i < messages.length := hi
    have hget : messages.get? i = some (messages.get ⟨i, hlt⟩) := List.get?_eq_get hlt
    have htake : (messages.take (i + 1)).reverse =
        messages.get ⟨i, hlt⟩ :: (messages.take i).reverse := by
      rw [List.take_succ, List.reverse_append]
      simp [List.getElem?_eq_getElem hlt]
    obtain ⟨r, hr, ha, hw⟩ :=
      historyMessage_eq lowerRune cfg N channelID w (messages.get ⟨i, hlt⟩)
    rw [historyLoop, hget]
    simp only [hr]
    rw [historyLoop_eq lowerRune cfg N channelID messages i _ (Nat.le_of_lt hlt)]
    simp only [htake, List.flatMap_cons]
    rw [notifyLinks_append, ha, hw]

/-- The backfill of a channel whose history was fetched notifies the links of the fetched
messages from the last fetched message to the first. -/
theorem fetchChannelHistory_eq {W : Type} (lowerRune : Nat → Nat) (cfg : Config)
    (N : Notifier W) (api : Api) (w : W) (channelID : Int) (messages : List MessageClass)
    (hf : fetchMessages api channelID = Except.ok messages) :
    fetchChannelHistory lowerRune cfg N api w channelID =
      some ⟨(notifyLinks lowerRune N
          (messages.reverse.flatMap (messageLinks lowerRune cfg channelID)) w).1,
        (notifyLinks lowerRune N
          (messages.reverse.flatMap (messageLinks lowerRune cfg channelID)) w).2, none⟩ := by
  unfold fetchChannelHistory
  rw [hf]
  simp only [historyLoop_eq lowerRune cfg N channelID messages messages.length w le_rfl,
    List.take_length]

/-! ## Lemmas on the progress monitor -/

theorem lastCount_snoc : ∀ (last : Int) (pre : List Int) (c : Int),
    lastCount last (pre ++ [c]) = c
  | _, [], _ => rfl
  | _, x :: xs, c => by
    rw [List.cons_append, lastCount]
    exact lastCount_snoc x xs c

theorem noProgressTicks_snoc : ∀ (last : Int) (pre : List Int) (c : Int),
    noProgressTicks last (pre ++ [c]) =
      noProgressTicks last pre ++ [decide (c = lastCount last pre)]
  | last, [], c => by simp [noProgressTicks, lastCount]
  | last, x :: xs, c => by
    rw [List.cons_append, noProgressTicks, noProgressTicks_snoc x xs c, noProgressTicks,
      lastCount, List.cons_append]

theorem stallLength_snoc (last : Int) (pre : List Int) (c : Int) :
    stallLength last (pre ++ [c]) =
      if c = lastCount last pre then stallLength last pre + 1 else 0 := by
  unfold stallLength
  rw [noProgressTicks_snoc, List.reverse_append]
  by_cases h : c = lastCount last pre <;> simp [List.takeWhile, h]

theorem noProgressTicks_length : ∀ (last : Int) (counts : List Int),
    (noProgressTicks last counts).length = counts.length
  | _, [] => rfl
  | _, c :: cs => by simp [noProgressTicks, noProgressTicks_length c cs]

theorem stallLength_le (last : Int) (counts : List Int) :
    stallLength last counts ≤ counts.length := by
  unfold stallLength
  calc ((noProgressTicks last counts).reverse.takeWhile id).length
      ≤ (noProgressTicks last counts).reverse.length :=
        (List.takeWhile_sublist _).length_le
    _ = counts.length := by rw [List.length_reverse, noProgressTicks_length]

theorem wrapInt_eq (n : Int) (h0 : 0 ≤ n) (h1 : n < 2 ^ 63) : wrapInt n = n := by
  unfold wrapInt
  norm_num at h1 ⊢
  omega

/-- One tick from the variables reached after the ticks `pre`: the warning is printed exactly
when the run of no-progress ticks has reached 6, and the variables follow the history. -/
theorem tick_spec (s : Progress) (pre : List Int) (c : Int)
    (hlast : s.lastDialCount = lastCount 0 pre)
    (hcount : s.noProgressCount = (stallLength 0 pre : Int))
    (hlen : ((pre ++ [c]).length : Int) < 2 ^ 63) :
    (s.tick c).2 = decide (6 ≤ stallLength 0 (pre ++ [c])) ∧
      (s.tick c).1.lastDialCount = lastCount 0 (pre ++ [c]) ∧
      (s.tick c).1.noProgressCount = (stallLength 0 (pre ++ [c]) : Int) := by
  have hle := stallLength_le 0 pre
  rw [List.length_append, List.length_singleton] at hlen
  push_cast at hlen
  obtain ⟨l, n⟩ := s
  simp only at hlast hcount
  subst hlast hcount
  rw [stallLength_snoc, lastCount_snoc]
  unfold Progress.tick
  by_cases h : c = lastCount 0 pre
  · have hw : wrapInt ((stallLength 0 pre : Int) + 1) = (stallLength 0 pre : Int) + 1 :=
      wrapInt_eq _ (by omega) (by omega)
    subst h
    rw [if_pos rfl, if_pos rfl, hw]
    refine ⟨?_, rfl, by push_cast; rfl⟩
    simp only []
    exact decide_eq_decide.mpr ⟨fun h => by omega, fun h => by omega⟩
  · rw [if_neg h, if_neg h]
    exact ⟨by simp, rfl, by simp⟩

/-- The run of the monitor from the variables reached after the ticks `pre`. -/
theorem run_spec : ∀ (rest : List Int) (s : Progress) (pre : List Int),
    s.lastDialCount = lastCount 0 pre →
    s.noProgressCount = (stallLength 0 pre : Int) →
    ((pre ++ rest).length : Int) < 2 ^ 63 →
    (Progress.run s rest).1 =
        (List.range rest.length).map
          (fun i => decide (6 ≤ stallLength 0 (pre ++ rest.take (i + 1)))) ∧
      (Progress.run s rest).2.noProgressCount = (stallLength 0 (pre ++ rest) : Int)
  | [], s, pre, _, hcount, _ => by simp [Progress.run, hcount]
  | c :: rest, s, pre, hlast, hcount, hlen => by
    have hlen1 : ((pre ++ [c]).length : Int) < 2 ^ 63 := by
      simp only [List.length_append, List.length_cons, List.length_nil] at hlen ⊢
      push_cast at hlen ⊢
      omega
    obtain ⟨t1, t2, t3⟩ := tick_spec s pre c hlast hcount hlen1
    have ih := run_spec rest (s.tick c).1 (pre ++ [c]) t2 t3
      (by simpa [List.append_assoc] using hlen)
    simp only [List.append_assoc, List.singleton_append] at ih
    rw [Progress.run]
    refine ⟨?_, ih.2⟩
    simp only [ih.1, t1, List.length_cons, List.range_succ_eq_map, List.map_cons,
      List.map_map, List.take_succ_cons, List.take_zero]
    rfl

/-! ## Lemmas on termination and on the scheme marker -/

theorem scanLinkEnd_le : ∀ (s : GoString) (n : Nat), scanLinkEnd s n ≤ n + s.length
  | [], n => by simp [scanLinkEnd]
  | ch :: rest, n => by
    unfold scanLinkEnd
    split
    · exact Nat.le_add_right _ _
    · have := scanLinkEnd_le rest (n + 1)
      simp only [List.length_cons]
      omega

/-- The scan does not stop inside a prefix that has no space, tab, newline or carriage
return. -/
theorem scanLinkEnd_prefix : ∀ (m t : GoString) (n : Nat), m <+: t →
    (∀ b ∈ m, ¬ (b = 0x20 ∨ b = 0x09 ∨ b = 0x0A ∨ b = 0x0D)) →
    n + m.length ≤ scanLinkEnd t n
  | [], t, n, _, _ => by simpa using le_scanLinkEnd t n
  | b :: m, t, n, hp, hm => by
    obtain ⟨r, hr⟩ := hp
    subst hr
    rw [List.cons_append, scanLinkEnd, if_neg (hm b (List.mem_cons_self _ _))]
    have := scanLinkEnd_prefix m (m ++ r) (n + 1) (List.prefix_append m r)
      (fun x hx => hm x (List.mem_cons_of_mem _ hx))
    simp only [List.length_cons]
    omega

/-- The bytes of the two scheme markers are ASCII, are not in the cutset of trailing
punctuation, and are not white space. -/
theorem marker_bytes (m : GoString) (hm : m = lit "http://" ∨ m = lit "https://") :
    ∀ b ∈ m, (b < 0x80 ∧ trailingPunct.contains b = false) ∧
      ¬ (b = 0x20 ∨ b = 0x09 ∨ b = 0x0A ∨ b = 0x0D) := by
  rcases hm with h | h <;> subst h <;> decide

theorem marker_length (m : GoString) (hm : m = lit "http://" ∨ m = lit "https://") :
    7 ≤ m.length := by
  rcases hm with h | h <;> subst h <;> decide

/-- One iteration of the loop of `extractLinks` that found a marker at `k`: the scan ends
at or after the end of the marker and inside the line, so the rest of the line is shorter. -/
theorem linkEnd_bounds (rem : GoString) (k : Nat) (m : GoString)
    (hm : m = lit "http://" ∨ m = lit "https://") (hp : m <+: rem.drop k) :
    k + m.length ≤ scanLinkEnd (rem.drop k) k ∧ scanLinkEnd (rem.drop k) k ≤ rem.length ∧
      (rem.drop (scanLinkEnd (rem.drop k) k)).length < rem.length := by
  have h1 := scanLinkEnd_prefix m (rem.drop k) k hp (fun b hb => (marker_bytes m hm b hb).2)
  have h2 := scanLinkEnd_le (rem.drop k) k
  have h3 := marker_length m hm
  have h4 : m.length ≤ (rem.drop k).length := hp.length_le
  rw [List.length_drop] at h2 h4
  refine ⟨h1, by omega, ?_⟩
  rw [List.length_drop]
  omega

/-- The loop of `extractLinks` gives the same result for every amount of fuel above the
length of the remaining line. -/
theorem extractLoop_fuel (lowerRune : Nat → Nat) (bl : List GoString) :
    ∀ (f1 f2 : Nat) (rem : GoString) (links : List GoString),
      rem.length < f1 → rem.length < f2 →
      extractLoop lowerRune bl f1 rem links = extractLoop lowerRune bl f2 rem links
  | 0, _, _, _, h, _ => absurd h (Nat.not_lt_zero _)
  | _ + 1, 0, _, _, _, h => absurd h (Nat.not_lt_zero _)
  | f1 + 1, f2 + 1, rem, links, h1, h2 => by
    rw [extractLoop, extractLoop]
    by_cases h0 : rem.length > 0
    · simp only [h0, if_true]
      rcases schemeStart_cases rem with hs | ⟨k, hs, hp⟩
      · simp [hs]
      · have hnot : ¬ ((k : Int) < 0) := by omega
        simp only [hs, hnot, if_false, Int.toNat_ofNat]
        have hk := lt_scanLinkEnd rem k hp
        apply extractLoop_fuel lowerRune bl f1 f2
        · rw [List.length_drop]
          omega
        · rw [List.length_drop]
          omega
    · simp only [h0, if_false]

theorem decodeRune_head (t : GoString) : (decodeRune t).2 ≤ 1 ∨ 0x80 ≤ t.getD 0 0 := by
  cases t with
  | nil => left; simp [decodeRune]
  | cons s0 rest =>
    by_cases h : s0 < 0x80
    · left
      simp only [decodeRune, if_pos h]
      exact le_rfl
    · right
      simpa using h

theorem getD_take_drop (s : GoString) (start n : Nat) (hn : 0 < n) :
    ((s.drop start).take n).getD 0 0 = s.getD start 0 := by
  simp [List.getD_eq_getElem?_getD, List.getElem?_take, hn]

/-- When the last byte of `s` is not ASCII, the rune that `DecodeLastRuneInString` reports
starts at a byte that is not ASCII. -/
theorem decodeLastRune_first (s : GoString) (h : s ≠ [])
    (hlast : ¬ s.getD (s.length - 1) 0 < runeSelf) :
    1 ≤ (decodeLastRune s).2 ∧ (decodeLastRune s).2 ≤ s.length ∧
      0x80 ≤ s.getD (s.length - (decodeLastRune s).2) 0 := by
  have hpos : 0 < s.length := List.length_pos.mpr h
  have hscan := lastRuneScan_le s (s.length - 4) (s.length - 1)
  have hw := decodeLastRune_width s h
  refine ⟨hw.1, hw.2, ?_⟩
  have hl : 0x80 ≤ s.getD (s.length - 1) 0 := by
    unfold runeSelf at hlast
    omega
  revert hw
  unfold decodeLastRune
  simp only []
  rw [if_neg (by omega), if_neg hlast]
  generalize hstart : (if lastRuneScan s (s.length - 4) (s.length - 1) ≤ s.length - 4
    then s.length - 4 else lastRuneScan s (s.length - 4) (s.length - 1) - 1) = start
  have hlt : start < s.length := by
    rw [← hstart]
    split <;> omega
  intro hw
  by_cases hne : start + (decodeRune ((s.drop start).take (s.length - start))).2 ≠ s.length
  · rw [if_pos hne]
    exact hl
  · rw [if_neg hne]
    rw [ne_eq, not_not] at hne
    rcases decodeRune_head ((s.drop start).take (s.length - start)) with h1 | h1
    · have : s.length - (decodeRune ((s.drop start).take (s.length - start))).2
          = s.length - 1 := by omega
      rw [this]
      exact hl
    · rw [getD_take_drop s start _ (by omega)] at h1
      have : s.length - (decodeRune ((s.drop start).take (s.length - start))).2 = start := by
        omega
      rw [this]
      exact h1

/-- The step of `trimRightUnicode`: when the last rune is in the cutset, the bytes removed
start at a byte that is not ASCII or is in the cutset. -/
theorem trimStep_first (cutset : List Nat) (s : GoString) (h0 : s.length > 0)
    (d : Nat × Nat)
    (hd : d = if s.getD (s.length - 1) 0 ≥ runeSelf then decodeLastRune s
      else (s.getD (s.length - 1) 0, 1))
    (hc : cutset.contains d.1 = true) :
    1 ≤ d.2 ∧ d.2 ≤ s.length ∧
      (0x80 ≤ s.getD (s.length - d.2) 0 ∨ cutset.contains (s.getD (s.length - d.2) 0) = true) := by
  by_cases hl : s.getD (s.length - 1) 0 ≥ runeSelf
  · rw [if_pos hl] at hd
    subst hd
    have := decodeLastRune_first s (List.length_pos.mp h0) (by omega)
    exact ⟨this.1, this.2.1, Or.inl this.2.2⟩
  · rw [if_neg hl] at hd
    subst hd
    exact ⟨le_rfl, h0, Or.inr hc⟩

/-- A byte of `s` at a position inside a prefix `m` of `s` is a byte of `m`. -/
theorem getD_prefix_mem (m s : GoString) (p : Nat) (hp : m <+: s) (hlt : p < m.length) :
    s.getD p 0 ∈ m := by
  obtain ⟨r, hr⟩ := hp
  subst hr
  rw [List.getD_eq_getElem?_getD, List.getElem?_append_left hlt, List.getElem?_eq_getElem hlt]
  exact List.getElem_mem hlt

/-- The loop of `trimRightUnicode` keeps a prefix whose bytes are ASCII and not in the
cutset. -/
theorem trimRightAux_prefix (cutset : List Nat) (m : GoString)
    (hm : ∀ b ∈ m, b < 0x80 ∧ cutset.contains b = false) :
    ∀ (k : Nat) (s : GoString), m <+: s → m <+: trimRightAux cutset k s
  | 0, s, hp => by
    rw [trimRightAux]
    exact hp
  | k + 1, s, hp => by
    rw [trimRightAux]
    by_cases h0 : s.length > 0
    · rw [if_pos h0]
      simp only []
      generalize hd : (if s.getD (s.length - 1) 0 ≥ runeSelf then decodeLastRune s
        else (s.getD (s.length - 1) 0, 1)) = d
      by_cases hc : (!cutset.contains d.1) = true
      · rw [if_pos hc]
        exact hp
      · rw [if_neg hc]
        have hc2 : cutset.contains d.1 = true := by simpa using hc
        obtain ⟨h1, h2, h3⟩ := trimStep_first cutset s h0 d hd.symm hc2
        have hge : m.length ≤ s.length - d.2 := by
          by_contra hlt
          have hmem := getD_prefix_mem m s (s.length - d.2) hp (by omega)
          have := hm _ hmem
          rcases h3 with h3 | h3
          · omega
          · rw [this.2] at h3
            exact absurd h3 (by decide)
        apply trimRightAux_prefix cutset m hm k
        obtain ⟨r, hr⟩ := hp
        subst hr
        rw [List.take_append_eq_append_take, List.take_of_length_le hge]
        exact List.prefix_append _ _
    · rw [if_neg h0]
      exact hp

/-- With more fuel than bytes the loop of `extractLinks` ends, whatever links were collected
before. -/
theorem extractLoop_some (lowerRune : Nat → Nat) (bl : List GoString) :
    ∀ (fuel : Nat) (rem : GoString) (links : List GoString), rem.length < fuel →
      ∃ r, extractLoop lowerRune bl fuel rem links = some r
  | 0, _, _, h => absurd h (Nat.not_lt_zero _)
  | fuel + 1, rem, links, hlen => by
    rw [extractLoop]
    by_cases h0 : rem.length > 0
    · simp only [h0, if_true]
      rcases schemeStart_cases rem with hs | ⟨k, hs, hp⟩
      · exact ⟨links, by simp [hs]⟩
      · have hnot : ¬ ((k : Int) < 0) := by omega
        simp only [hs, hnot, if_false, Int.toNat_ofNat]
        have hk := lt_scanLinkEnd rem k hp
        apply extractLoop_some lowerRune bl fuel
        rw [List.length_drop]
        omega
    · exact ⟨links, by simp [h0]⟩

/-- Go `strings.TrimRight` with the cutset of `extractLinks` keeps a scheme marker at the
start of the string. -/
theorem trimRight_marker (s m : GoString) (hm : m = lit "http://" ∨ m = lit "https://")
    (hp : m <+: s) : m <+: trimRight s trailingPunct := by
  unfold trimRight
  split
  · exact hp
  · exact trimRightAux_prefix trailingPunct m (fun b hb => (marker_bytes m hm b hb).1) _ s hp

/-- The link cut out at a marker, before and after trimming, begins with the marker. -/
theorem link_marker (rem : GoString) (k : Nat) (m : GoString)
    (hm : m = lit "http://" ∨ m = lit "https://") (hp : m <+: rem.drop k) :
    m <+: trimRight ((rem.drop k).take (scanLinkEnd (rem.drop k) k - k)) trailingPunct := by
  apply trimRight_marker _ m hm
  have hb := (linkEnd_bounds rem k m hm hp).1
  obtain ⟨r, hr⟩ := hp
  rw [← hr, List.take_append_eq_append_take, List.take_of_length_le (by rw [hr]; omega)]
  exact List.prefix_append _ _

/-- With more fuel than bytes the loop ends, and it only adds links that begin with a scheme
marker. -/
theorem extractLoop_scheme (lowerRune : Nat → Nat) (bl : List GoString) :
    ∀ (fuel : Nat) (rem : GoString) (links : List GoString), rem.length < fuel →
      (∀ l ∈ links, hasScheme l) →
      ∃ r, extractLoop lowerRune bl fuel rem links = some r ∧ ∀ l ∈ r, hasScheme l
  | 0, _, _, h, _ => absurd h (Nat.not_lt_zero _)
  | fuel + 1, rem, links, hlen, hok => by
    rw [extractLoop]
    by_cases h0 : rem.length > 0
    · simp only [h0, if_true]
      rcases schemeStart_cases rem with hs | ⟨k, hs, hp⟩
      · exact ⟨links, by simp [hs], hok⟩
      · have hnot : ¬ ((k : Int) < 0) := by omega
        simp only [hs, hnot, if_false, Int.toNat_ofNat]
        have hk := lt_scanLinkEnd rem k hp
        apply extractLoop_scheme lowerRune bl fuel
        · rw [List.length_drop]
          omega
        · intro l hl
          split at hl
          · rcases List.mem_append.mp hl with h1 | h1
            · exact hok l h1
            · rw [List.mem_singleton] at h1
              subst h1
              rcases hp with hp | hp
              · exact Or.inl (link_marker rem k _ (Or.inl rfl) hp)
              · exact Or.inr (link_marker rem k _ (Or.inr rfl) hp)
          · exact hok l hl
    · exact ⟨links, by simp [h0], hok⟩

theorem extractLine_scheme (lowerRune : Nat → Nat) (bl : List GoString)
    (links : List GoString) (line : GoString) (hok : ∀ l ∈ links, hasScheme l) :
    ∃ r, extractLine lowerRune bl links line = some r ∧ ∀ l ∈ r, hasScheme l := by
  unfold extractLine
  simp only []
  split
  · exact extractLoop_scheme lowerRune bl _ _ links (Nat.lt_succ_self _) hok
  · exact ⟨links, rfl, hok⟩

theorem extractLines_scheme (lowerRune : Nat → Nat) (bl : List GoString) :
    ∀ (lines : List GoString) (links : List GoString), (∀ l ∈ links, hasScheme l) →
      ∃ r, extractLines lowerRune bl lines links = some r ∧ ∀ l ∈ r, hasScheme l
  | [], links, hok => ⟨links, rfl, hok⟩
  | line :: lines, links, hok => by
    obtain ⟨r, hr, hr2⟩ := extractLine_scheme lowerRune bl links line hok
    rw [extractLines, hr]
    exact extractLines_scheme lowerRune bl lines r hr2

/-! ## The claims -/

/-- C1: `handleMessage` reaches `extractLinks` exactly when the allow-list is empty or has
the channel ID, some keyword is a substring of the text (both lower-cased), and the channel is
whitelisted or some content-filter term is a substring of the text; otherwise the message is
rejected: no link is extracted, no notification is attempted, the world is untouched. -/
theorem handleMessage_filter {W : Type} (lowerRune : Nat → Nat) (cfg : Config)
    (N : Notifier W) (w : W) (msg : Message) :
    ∃ o, handleMessage lowerRune cfg N w msg = some o ∧
      (o.extracted.isSome = true ↔
        passesFilter lowerRune cfg (originChannelID msg.PeerID) msg.Message) ∧
      (¬ passesFilter lowerRune cfg (originChannelID msg.PeerID) msg.Message →
        o.extracted = none ∧ o.attempts = [] ∧ o.world = w) := by
  obtain ⟨links, hl⟩ := extractLinks_total lowerRune cfg msg.Message
  by_cases hp : passesFilter lowerRune cfg (originChannelID msg.PeerID) msg.Message
  · exact ⟨_, handleMessage_pass lowerRune cfg N w msg links hl hp, by simp [hp],
      fun hn => absurd hp hn⟩
  · exact ⟨_, handleMessage_reject lowerRune cfg N w msg hp, by simp [hp],
      fun _ => ⟨rfl, rfl, rfl⟩⟩

/-- C2: for every text and every link blacklist, `extractLinks` returns, and every link it
returns is longer than 8 bytes and, lower-cased, has no lower-cased blacklist entry as a
substring. -/
theorem extractLinks_links_admissible (lowerRune : Nat → Nat) (cfg : Config)
    (text : GoString) :
    ∃ links, extractLinks lowerRune cfg text = some links ∧
      ∀ link ∈ links, 8 < link.length ∧
        ∀ blackword ∈ cfg.LinkBlacklist,
          ¬ toLower lowerRune blackword <:+: toLower lowerRune link :=
  extractLines_spec lowerRune cfg.LinkBlacklist (split 0x0A text) [] (by simp)

/-- C3: a response with status 200 whose decoded error field is non-empty and contains
`"已存在"`, or contains `"already exists"` once lower-cased, makes `addSubscription` return
`(false, "订阅已存在")`, whatever the message field holds. -/
theorem addSubscription_alreadyExists {W : Type} (lowerRune : Nat → Nat) (N : Notifier W)
    (w w' : W) (subURL body : GoString) (result : SubResult)
    (hx : N.exchange w subURL = (Exchange.response 200 body, w'))
    (hj : N.jsonUnmarshal body = Except.ok result)
    (he : result.Error ≠ [])
    (hm : lit "已存在" <:+: result.Error ∨
      lit "already exists" <:+: toLower lowerRune result.Error) :
    addSubscription lowerRune N w subURL = ((false, lit "订阅已存在"), w') := by
  have hc : (contains result.Error (lit "已存在") ||
      contains (toLower lowerRune result.Error) (lit "already exists")) = true := by
    rw [Bool.or_eq_true, contains_iff, contains_iff]
    exact hm
  unfold addSubscription
  rw [hx]
  simp only [ne_eq, not_true_eq_false, if_false, hj, he, not_false_eq_true, if_true, hc]

/-- C3, the sample response: status 200 with the body `\x7b"error":"already exists"\x7d`. -/
theorem addSubscription_alreadyExists_witness :
    (constNotifier 200 (lit "\x7b\"error\":\"already exists\"\x7d")).exchange 0
        (lit "https://a.example.com/x")
      = (Exchange.response 200 (lit "\x7b\"error\":\"already exists\"\x7d"), 1) ∧
    sampleUnmarshal (lit "\x7b\"error\":\"already exists\"\x7d")
      = Except.ok ⟨[], lit "already exists"⟩ ∧
    addSubscription id (constNotifier 200 (lit "\x7b\"error\":\"already exists\"\x7d")) 0
        (lit "https://a.example.com/x")
      = ((false, lit "订阅已存在"), 1) :=
  ⟨rfl, rfl,
    addSubscription_alreadyExists id
      (constNotifier 200 (lit "\x7b\"error\":\"already exists\"\x7d")) 0 1
      (lit "https://a.example.com/x") (lit "\x7b\"error\":\"already exists\"\x7d")
      ⟨[], lit "already exists"⟩ rfl rfl (by decide)
      (Or.inr ((contains_iff _ _).mp (by decide)))⟩

/-- C4 fails as stated: at status 201, which is in the 2xx range, the well-formed body
`\x7b"message":"created"\x7d` without an error field is not classified as Created;
`addSubscription` returns `false` with the status code and the body as detail. -/
theorem addSubscription_status201_not_created :
    ((200 : Int) ≤ 201 ∧ (201 : Int) ≤ 299) ∧
    sampleUnmarshal (lit "\x7b\"message\":\"created\"\x7d") = Except.ok ⟨lit "created", []⟩ ∧
    addSubscription id (constNotifier 201 (lit "\x7b\"message\":\"created\"\x7d")) 0
        (lit "https://a.example.com/x")
      = ((false, lit "API 返回错误状态码 201: \x7b\"message\":\"created\"\x7d"), 1) ∧
    (addSubscription id (constNotifier 201 (lit "\x7b\"message\":\"created\"\x7d")) 0
        (lit "https://a.example.com/x")).1 ≠ (true, lit "created") := by
  refine ⟨by decide, rfl, rfl, by decide⟩

/-- C4 as amended: a response with status 200 whose body decodes with an empty error field
makes `addSubscription` return `true` with the message field as detail; a response with any
other status, the rest of the 2xx range included, makes it return `false` with the detail
`"API 返回错误状态码 <status>: <body>"`. -/
theorem addSubscription_created {W : Type} (lowerRune : Nat → Nat) (N : Notifier W)
    (w w' : W) (subURL body : GoString) (StatusCode : Int)
    (hx : N.exchange w subURL = (Exchange.response StatusCode body, w')) :
    (StatusCode = 200 → ∀ result : SubResult, N.jsonUnmarshal body = Except.ok result →
      result.Error = [] →
      addSubscription lowerRune N w subURL = ((true, result.Message), w')) ∧
    (StatusCode ≠ 200 →
      addSubscription lowerRune N w subURL
        = ((false, lit "API 返回错误状态码 " ++ fmtInt StatusCode ++ lit ": " ++ body), w')) := by
  constructor
  · intro hs result hj he
    unfold addSubscription
    rw [hx]
    simp only [hs, ne_eq, not_true_eq_false, if_false, hj, he]
  · intro hs
    unfold addSubscription
    rw [hx]
    simp only [hs, ne_eq, not_false_eq_true, if_true]

/-- C4 as amended, on the sample response `\x7b"message":"created"\x7d`: Created at status
200, not Created at status 201. -/
theorem addSubscription_created_witness :
    (constNotifier 200 createdBody).exchange 0 (lit "https://a.example.com/x")
      = (Exchange.response 200 createdBody, 1) ∧
    sampleUnmarshal createdBody = Except.ok ⟨lit "created", []⟩ ∧
    addSubscription id (constNotifier 200 createdBody) 0 (lit "https://a.example.com/x")
      = ((true, lit "created"), 1) ∧
    (constNotifier 201 createdBody).exchange 0 (lit "https://a.example.com/x")
      = (Exchange.response 201 createdBody, 1) ∧
    addSubscription id (constNotifier 201 createdBody) 0 (lit "https://a.example.com/x")
      = ((false, lit "API 返回错误状态码 201: \x7b\"message\":\"created\"\x7d"), 1) :=
  ⟨rfl, rfl,
    (addSubscription_created id (constNotifier 200 createdBody) 0 1
      (lit "https://a.example.com/x") createdBody 200 rfl).1 rfl ⟨lit "created", []⟩ rfl rfl,
    rfl,
    (addSubscription_created id (constNotifier 201 createdBody) 0 1
      (lit "https://a.example.com/x") createdBody 201 rfl).2 (by decide)⟩

/-- C5: for a status code outside 200..299 and any body, `addSubscription` returns `false`
with the detail `"API 返回错误状态码 <status>: <body>"`, which is never the sentinel
`"订阅已存在"`; the decoder is not consulted. -/
theorem addSubscription_transportError {W : Type} (lowerRune : Nat → Nat) (N : Notifier W)
    (w w' : W) (subURL body : GoString) (StatusCode : Int)
    (hs : ¬ (200 ≤ StatusCode ∧ StatusCode ≤ 299))
    (hx : N.exchange w subURL = (Exchange.response StatusCode body, w')) :
    addSubscription lowerRune N w subURL
      = ((false, lit "API 返回错误状态码 " ++ fmtInt StatusCode ++ lit ": " ++ body), w') ∧
    (addSubscription lowerRune N w subURL).1.2 ≠ lit "订阅已存在" := by
  have hne : StatusCode ≠ 200 := by
    intro h
    exact hs (by omega)
  have heq : addSubscription lowerRune N w subURL
      = ((false, lit "API 返回错误状态码 " ++ fmtInt StatusCode ++ lit ": " ++ body), w') := by
    unfold addSubscription
    rw [hx]
    simp only [hne, ne_eq, not_false_eq_true, if_true]
  refine ⟨heq, ?_⟩
  rw [heq]
  obtain ⟨t, ht⟩ := lit_statusPrefix
  obtain ⟨u, hu⟩ := lit_alreadyExists
  simp only [ht, hu, List.cons_append]
  intro h
  have h1 := (List.cons.inj h).1
  exact absurd h1 (by decide)

/-- C5 at status 500 with a body that carries an "already exists" error field. -/
theorem addSubscription_transportError_witness :
    ¬ ((200 : Int) ≤ 500 ∧ (500 : Int) ≤ 299) ∧
    (constNotifier 500 (lit "\x7b\"error\":\"already exists\"\x7d")).exchange 0
        (lit "https://a.example.com/x")
      = (Exchange.response 500 (lit "\x7b\"error\":\"already exists\"\x7d"), 1) ∧
    addSubscription id (constNotifier 500 (lit "\x7b\"error\":\"already exists\"\x7d")) 0
        (lit "https://a.example.com/x")
      = ((false, lit "API 返回错误状态码 500: \x7b\"error\":\"already exists\"\x7d"), 1) ∧
    (addSubscription id (constNotifier 500 (lit "\x7b\"error\":\"already exists\"\x7d")) 0
        (lit "https://a.example.com/x")).1.2 ≠ lit "订阅已存在" :=
  ⟨by decide, rfl,
    addSubscription_transportError id
      (constNotifier 500 (lit "\x7b\"error\":\"already exists\"\x7d")) 0 1
      (lit "https://a.example.com/x") (lit "\x7b\"error\":\"already exists\"\x7d") 500
      (by decide) rfl⟩

/-- C6: when the history of a channel was fetched, `fetchChannelHistory` returns `nil`, and
it calls `addSubscription` once for each link of the fetched messages, message by message
from the last fetched message to the first and within a message in extraction order; each
call is made in the world the calls before it left, and the world afterwards is the one
left by one POST per link in that order. -/
theorem fetchChannelHistory_order {W : Type} (lowerRune : Nat → Nat) (cfg : Config)
    (N : Notifier W) (api : Api) (w : W) (channelID : Int) (messages : List MessageClass)
    (hf : fetchMessages api channelID = Except.ok messages) :
    ∃ o, fetchChannelHistory lowerRune cfg N api w channelID = some o ∧ o.err = none ∧
      o.attempts = callsInOrder lowerRune N w
        (messages.reverse.flatMap (messageLinks lowerRune cfg channelID)) ∧
      o.attempts.map Attempt.link =
        messages.reverse.flatMap (messageLinks lowerRune cfg channelID) ∧
      o.world = worldAfter N w
        (messages.reverse.flatMap (messageLinks lowerRune cfg channelID)) :=
  ⟨_, fetchChannelHistory_eq lowerRune cfg N api w channelID messages hf, rfl,
    congrArg Prod.fst (notifyLinks_calls lowerRune N _ w),
    notifyLinks_links lowerRune N _ w,
    congrArg Prod.snd (notifyLinks_calls lowerRune N _ w)⟩

/-- C6 on three fetched messages that all match, with a service that answers every request
with the sample success response: the link of the oldest message is notified first, the link
of the newest last, all three calls succeed, and three requests were made. -/
theorem fetchChannelHistory_order_witness :
    fetchMessages sampleApi 42 = Except.ok sampleHistory ∧
    ∃ o, fetchChannelHistory id sampleConfig (constNotifier 200 createdBody) sampleApi 0 42
        = some o ∧
      o.err = none ∧
      o.attempts =
        [⟨lit "https://a.example.com/1", true, lit "created"⟩,
          ⟨lit "https://a.example.com/2", true, lit "created"⟩,
          ⟨lit "https://a.example.com/3", true, lit "created"⟩] ∧
      o.attempts.map Attempt.link =
        [lit "https://a.example.com/1", lit "https://a.example.com/2",
          lit "https://a.example.com/3"] ∧
      o.world = 3 :=
  ⟨rfl, fetchChannelHistory_order id sampleConfig (constNotifier 200 createdBody) sampleApi
    0 42 sampleHistory rfl⟩

/-- C7: with the blacklist `["blocked.test"]`, the text
`"check https://a.example.com/x, and https://blocked.test/y"` yields exactly
`["https://a.example.com/x"]`, whatever the other settings and the Unicode case table. -/
theorem extractLinks_example (lowerRune : Nat → Nat) (Keywords ContentFilter : List GoString)
    (MonitorChannels WhitelistChannels : List Int) :
    extractLinks lowerRune
      ⟨Keywords, ContentFilter, [lit "blocked.test"], MonitorChannels, WhitelistChannels⟩
      (lit "check https://a.example.com/x, and https://blocked.test/y")
      = some [lit "https://a.example.com/x"] := by
  rfl

/-- C8 fails as stated: with the counts 1, 1, 1, 1, 1, 1, 1, 1 the seventh tick is the sixth
consecutive no-progress tick and the eighth tick the seventh of the same run, and the warning
is printed on both. -/
theorem progress_warning_repeats :
    stallLength 0 [1, 1, 1, 1, 1, 1, 1] = 6 ∧
    stallLength 0 [1, 1, 1, 1, 1, 1, 1, 1] = 7 ∧
    (Progress.run Progress.init [1, 1, 1, 1, 1, 1, 1, 1]).1 =
      [false, false, false, false, false, false, true, true] := by
  decide

/-- C8 as amended: over fewer than `2 ^ 63` ticks, the warning is printed at a tick exactly
when that tick ends a run of at least six consecutive no-progress ticks, so on the sixth tick
of a run and on every later tick of it; the counter `noProgressCount` is the length of the
current run, hence zero after a tick at which the count advanced. -/
theorem progress_stall_warning (counts : List Int) (hlen : counts.length < 2 ^ 63) :
    (Progress.run Progress.init counts).1 =
        (List.range counts.length).map
          (fun i => decide (6 ≤ stallLength 0 (counts.take (i + 1)))) ∧
      (Progress.run Progress.init counts).2.noProgressCount = (stallLength 0 counts : Int) ∧
      ∀ (pre : List Int) (c : Int), counts = pre ++ [c] → c ≠ lastCount 0 pre →
        (Progress.run Progress.init counts).2.noProgressCount = 0 := by
  have h := run_spec counts Progress.init [] rfl rfl (by
    rw [List.nil_append]
    exact_mod_cast hlen)
  simp only [List.nil_append] at h
  refine ⟨h.1, h.2, ?_⟩
  intro pre c hc hne
  rw [h.2, hc, stallLength_snoc, if_neg hne]
  rfl

/-- C8 as amended, on a stall of seven ticks followed by progress and a new stall. -/
theorem progress_stall_warning_witness :
    [(1 : Int), 1, 1, 1, 1, 1, 1, 1, 2, 2].length < 2 ^ 63 ∧
    (Progress.run Progress.init [1, 1, 1, 1, 1, 1, 1, 1, 2, 2]).1 =
      [false, false, false, false, false, false, true, true, false, false] ∧
    (Progress.run Progress.init [1, 1, 1, 1, 1, 1, 1, 1, 2, 2]).2.noProgressCount = 1 :=
  ⟨by decide,
    (progress_stall_warning [1, 1, 1, 1, 1, 1, 1, 1, 2, 2] (by decide)).1,
    (progress_stall_warning [1, 1, 1, 1, 1, 1, 1, 1, 2, 2] (by decide)).2.1⟩

/-- C9: for every notifier, `handleMessage` returns `nil`.  When the message passes the
filter it calls `addSubscription` once for each link of `extractLinks`, in extraction order,
each call in the world the calls before it left and whatever those calls returned, and the
world afterwards is the one left by one POST per link; when the message is rejected it makes
no call and leaves the world as it was. -/
theorem handleMessage_attempts {W : Type} (lowerRune : Nat → Nat) (cfg : Config)
    (N : Notifier W) (w : W) (msg : Message) :
    ∃ links o, extractLinks lowerRune cfg msg.Message = some links ∧
      handleMessage lowerRune cfg N w msg = some o ∧ o.err = none ∧
      (passesFilter lowerRune cfg (originChannelID msg.PeerID) msg.Message →
        o.attempts = callsInOrder lowerRune N w links ∧
        o.attempts.map Attempt.link = links ∧
        o.world = worldAfter N w links) ∧
      (¬ passesFilter lowerRune cfg (originChannelID msg.PeerID) msg.Message →
        o.attempts = [] ∧ o.world = w) := by
  obtain ⟨links, hl⟩ := extractLinks_total lowerRune cfg msg.Message
  by_cases hp : passesFilter lowerRune cfg (originChannelID msg.PeerID) msg.Message
  · exact ⟨links, _, hl, handleMessage_pass lowerRune cfg N w msg links hl hp, rfl,
      fun _ => ⟨congrArg Prod.fst (notifyLinks_calls lowerRune N links w),
        notifyLinks_links lowerRune N links w,
        congrArg Prod.snd (notifyLinks_calls lowerRune N links w)⟩,
      fun hn => absurd hp hn⟩
  · exact ⟨links, _, hl, handleMessage_reject lowerRune cfg N w msg hp, rfl,
      fun h => absurd h hp, fun _ => ⟨rfl, rfl⟩⟩

/-- C9 on a message with two links and a service whose first request fails: the failure of
the first call does not keep the second call from being made, and `nil` is returned. -/
theorem handleMessage_attempts_witness :
    (∃ links o,
      extractLinks id sampleConfig
          (lit "sub https://a.example.com/1 https://a.example.com/2") = some links ∧
        handleMessage id sampleConfig failFirstNotifier 0
          ⟨lit "sub https://a.example.com/1 https://a.example.com/2",
            PeerClass.PeerChannel 42, 10⟩ = some o ∧
        o.err = none ∧
        (passesFilter id sampleConfig (originChannelID (PeerClass.PeerChannel 42))
            (lit "sub https://a.example.com/1 https://a.example.com/2") →
          o.attempts = callsInOrder id failFirstNotifier 0 links ∧
          o.attempts.map Attempt.link = links ∧
          o.world = worldAfter failFirstNotifier 0 links) ∧
        (¬ passesFilter id sampleConfig (originChannelID (PeerClass.PeerChannel 42))
            (lit "sub https://a.example.com/1 https://a.example.com/2") →
          o.attempts = [] ∧ o.world = 0)) ∧
    handleMessage id sampleConfig failFirstNotifier 0
        ⟨lit "sub https://a.example.com/1 https://a.example.com/2",
          PeerClass.PeerChannel 42, 10⟩ =
      some ⟨some [lit "https://a.example.com/1", lit "https://a.example.com/2"],
        [⟨lit "https://a.example.com/1", false, lit "API 请求失败: timeout"⟩,
          ⟨lit "https://a.example.com/2", true, lit "created"⟩],
        2, none⟩ :=
  ⟨handleMessage_attempts id sampleConfig failFirstNotifier 0
    ⟨lit "sub https://a.example.com/1 https://a.example.com/2", PeerClass.PeerChannel 42, 10⟩,
    rfl⟩

/-- C10 fails as stated: with the empty string as keyword, the empty text from the
monitored and whitelisted channel 42 passes the filter of `handleMessage`, which calls
`extractLinks` and gets no link, while the backfill loop body skips the message before its
keyword test; the two paths differ on the filter decision. -/
theorem historyMessage_emptyText_decision :
    (42 : Int) ∈ emptyKeywordConfig.MonitorChannels ∧
    (handleMessage id emptyKeywordConfig (constNotifier 200 createdBody) 0
        ⟨[], PeerClass.PeerChannel 42, 10⟩).map Outcome.extracted = some (some []) ∧
    (historyMessage id emptyKeywordConfig (constNotifier 200 createdBody) 42 0
        (MessageClass.Message ⟨[], PeerClass.PeerChannel 42, 10⟩)).map HistoryStep.extracted
      = some none := by
  decide

/-- C10 as amended: for a channel of the allow-list, the backfill loop body on a fetched
message makes the same calls of `addSubscription`, with the same results, and leaves the
same world as `handleMessage` on a live message with the same text from that channel: one
call per link the message contributes, in order.  For a non-empty text the two paths also
agree on the filter decision and on the extracted links; for the empty text the backfill
skips the message and the live path makes no call. -/
theorem historyMessage_eq_handleMessage {W : Type} (lowerRune : Nat → Nat) (cfg : Config)
    (N : Notifier W) (w : W) (channelID : Int) (msg : Message) (Date : Int)
    (hch : channelID ∈ cfg.MonitorChannels) :
    ∃ o r,
      handleMessage lowerRune cfg N w ⟨msg.Message, PeerClass.PeerChannel channelID, Date⟩
        = some o ∧
      historyMessage lowerRune cfg N channelID w (MessageClass.Message msg) = some r ∧
      r.attempts = o.attempts ∧ r.world = o.world ∧
      o.attempts = callsInOrder lowerRune N w
        (messageLinks lowerRune cfg channelID (MessageClass.Message msg)) ∧
      (msg.Message ≠ [] → r.extracted = o.extracted) ∧
      (msg.Message = [] → r.extracted = none ∧ o.attempts = []) := by
  obtain ⟨links, hl⟩ := extractLinks_total lowerRune cfg msg.Message
  by_cases hc : matchesContent lowerRune cfg channelID msg.Message
  · have hlive := handleMessage_pass lowerRune cfg N w
      ⟨msg.Message, PeerClass.PeerChannel channelID, Date⟩ links hl ⟨Or.inr hch, hc⟩
    by_cases h0 : msg.Message = []
    · have hnil : links = [] := by
        rw [h0, extractLinks_nil] at hl
        exact (Option.some.inj hl).symm
      subst hnil
      have hm : messageLinks lowerRune cfg channelID (MessageClass.Message msg) = [] := by
        rw [messageLinks, if_neg (fun h => h.1 h0)]
      rw [hm]
      exact ⟨_, _, hlive,
        historyMessage_skip lowerRune cfg N channelID w msg (fun h => h.1 h0),
        rfl, rfl, rfl, fun h => absurd h0 h, fun _ => ⟨rfl, rfl⟩⟩
    · have hm : messageLinks lowerRune cfg channelID (MessageClass.Message msg) = links := by
        rw [messageLinks, if_pos ⟨h0, hc⟩, hl]
        rfl
      rw [hm]
      exact ⟨_, _, hlive, historyMessage_pass lowerRune cfg N channelID w msg links hl h0 hc,
        rfl, rfl, congrArg Prod.fst (notifyLinks_calls lowerRune N links w),
        fun _ => rfl, fun h => absurd h h0⟩
  · have hm : messageLinks lowerRune cfg channelID (MessageClass.Message msg) = [] := by
      rw [messageLinks, if_neg (fun h => hc h.2)]
    rw [hm]
    exact ⟨_, _, handleMessage_reject lowerRune cfg N w
        ⟨msg.Message, PeerClass.PeerChannel channelID, Date⟩ (fun h => hc h.2),
      historyMessage_skip lowerRune cfg N channelID w msg (fun h => hc h.2),
      rfl, rfl, rfl, fun _ => rfl, fun _ => ⟨rfl, rfl⟩⟩

/-- C10 as amended, on a message of channel 42 with a keyword and a link, with a service
that answers with the sample success response: both paths make the one call, which
succeeds, and both extract the one link. -/
theorem historyMessage_eq_handleMessage_witness :
    (42 : Int) ∈ sampleConfig.MonitorChannels ∧
    (∃ o r,
      handleMessage id sampleConfig (constNotifier 200 createdBody) 0
          ⟨lit "sub https://a.example.com/3", PeerClass.PeerChannel 42, 31⟩ = some o ∧
      historyMessage id sampleConfig (constNotifier 200 createdBody) 42 0
          (MessageClass.Message ⟨lit "sub https://a.example.com/3", PeerClass.nil, 30⟩)
        = some r ∧
      r.attempts = o.attempts ∧ r.world = o.world ∧
      o.attempts = [⟨lit "https://a.example.com/3", true, lit "created"⟩] ∧
      (lit "sub https://a.example.com/3" ≠ [] → r.extracted = o.extracted) ∧
      (lit "sub https://a.example.com/3" = [] → r.extracted = none ∧ o.attempts = [])) :=
  ⟨by decide,
    historyMessage_eq_handleMessage id sampleConfig (constNotifier 200 createdBody) 0 42
      ⟨lit "sub https://a.example.com/3", PeerClass.nil, 30⟩ 31 (by decide)⟩

/-- C11: `extractLinks` returns on every text and blacklist.  In the loop over a line, an
iteration that finds a scheme marker at `startIdx` ends its scan at or after the end of that
marker and inside the line, so the remaining line becomes strictly shorter; and the loop
ends, with one and the same result, for every amount of fuel above the length of the
remaining line. -/
theorem extractLinks_terminates (lowerRune : Nat → Nat) (cfg : Config) (text : GoString) :
    (∃ links, extractLinks lowerRune cfg text = some links) ∧
    (∀ remainingLine : GoString, 0 ≤ schemeStart remainingLine →
      ∃ m, (m = lit "http://" ∨ m = lit "https://") ∧
        m <+: remainingLine.drop (schemeStart remainingLine).toNat ∧
        (schemeStart remainingLine).toNat + m.length ≤
          scanLinkEnd (remainingLine.drop (schemeStart remainingLine).toNat)
            (schemeStart remainingLine).toNat ∧
        scanLinkEnd (remainingLine.drop (schemeStart remainingLine).toNat)
            (schemeStart remainingLine).toNat ≤ remainingLine.length ∧
        (remainingLine.drop (scanLinkEnd
            (remainingLine.drop (schemeStart remainingLine).toNat)
            (schemeStart remainingLine).toNat)).length < remainingLine.length) ∧
    (∀ (fuel : Nat) (remainingLine : GoString) (links : List GoString),
      remainingLine.length < fuel →
      ∃ r, extractLoop lowerRune cfg.LinkBlacklist fuel remainingLine links = some r ∧
        extractLoop lowerRune cfg.LinkBlacklist (remainingLine.length + 1) remainingLine links
          = some r) := by
  refine ⟨extractLinks_total lowerRune cfg text, ?_, ?_⟩
  · intro rem h0
    rcases schemeStart_cases rem with hs | ⟨k, hs, hp⟩
    · rw [hs] at h0
      exact absurd h0 (by decide)
    · rw [hs, Int.toNat_ofNat]
      rcases hp with hp | hp
      · exact ⟨_, Or.inl rfl, hp, linkEnd_bounds rem k _ (Or.inl rfl) hp⟩
      · exact ⟨_, Or.inr rfl, hp, linkEnd_bounds rem k _ (Or.inr rfl) hp⟩
  · intro fuel rem links hlt
    obtain ⟨r, hr⟩ := extractLoop_some lowerRune cfg.LinkBlacklist fuel rem links hlt
    refine ⟨r, hr, ?_⟩
    rw [← hr]
    exact extractLoop_fuel lowerRune cfg.LinkBlacklist _ _ rem links (Nat.lt_succ_self _) hlt

/-- C11 on the sample text of the specification: the first marker is found at byte 6, the
scan ends at byte 30, after the comma, and the rest of the line is shorter than the line. -/
theorem extractLinks_terminates_witness :
    schemeStart sampleText = 6 ∧
    scanLinkEnd (sampleText.drop 6) 6 = 30 ∧
    sampleText.length = 57 ∧
    0 ≤ schemeStart sampleText ∧
    ∃ m, (m = lit "http://" ∨ m = lit "https://") ∧
      m <+: sampleText.drop (schemeStart sampleText).toNat ∧
      (schemeStart sampleText).toNat + m.length ≤
        scanLinkEnd (sampleText.drop (schemeStart sampleText).toNat)
          (schemeStart sampleText).toNat ∧
      scanLinkEnd (sampleText.drop (schemeStart sampleText).toNat)
          (schemeStart sampleText).toNat ≤ sampleText.length ∧
      (sampleText.drop (scanLinkEnd (sampleText.drop (schemeStart sampleText).toNat)
          (schemeStart sampleText).toNat)).length < sampleText.length :=
  ⟨by decide, by decide, by decide, by decide,
    (extractLinks_terminates id sampleConfig sampleText).2.1 sampleText (by decide)⟩

/-- C12: every link that `extractLinks` returns begins with `"http://"` or `"https://"`, and
trimming with the cutset `",.;!?，。；！？、"` keeps a scheme marker at the start of any
string. -/
theorem extractLinks_links_scheme (lowerRune : Nat → Nat) (cfg : Config) (text : GoString) :
    (∃ links, extractLinks lowerRune cfg text = some links ∧
      ∀ link ∈ links, lit "http://" <+: link ∨ lit "https://" <+: link) ∧
    (∀ s : GoString,
      (lit "http://" <+: s → lit "http://" <+: trimRight s trailingPunct) ∧
      (lit "https://" <+: s → lit "https://" <+: trimRight s trailingPunct)) :=
  ⟨extractLines_scheme lowerRune cfg.LinkBlacklist (split 0x0A text) [] (by simp),
    fun s => ⟨trimRight_marker s _ (Or.inl rfl), trimRight_marker s _ (Or.inr rfl)⟩⟩

end TelegramMessage
